import Mathlib

/-!
Verification of the pulstream-plugin instruction core:
the flat-instruction extractor (src/pulstream-plugin/src/utils/transformers.rs),
the hierarchy builder and the recursive decode/process pipeline
(src/pulstream-plugin/src/utils/instruction.rs).

Machine integers are modelled as `Nat` with explicit `% 2^w` where the Rust
code truncates (`as u8`, `as u32`, `u8` wrapping add); fallible code (panics
from `assert!` or out-of-bounds indexing) is modelled with `Option`.
-/

namespace Pulstream

/-- Modelled from the spec: `MAX_STACK_DEPTH` is "a fixed platform constant"
imported by the code as `carbon_core::instruction::MAX_INSTRUCTION_STACK_DEPTH`
(the Solana protocol bound on instruction call-stack depth, 5). The constant's
definition is outside `src/`; only the value is fixed here, no proof below
depends on it being 5 rather than any other positive bound. -/
def MAX_INSTRUCTION_STACK_DEPTH : Nat := 5

/-- 32-byte public key, abstracted to `Nat`. `Pubkey::default()` is the zero
key, modelled as `0`. The conversion `Pubkey::try_from(key.to_bytes())`
between the two 32-byte pubkey types always succeeds and is modelled as the
identity. -/
abbrev Pubkey : Type := Nat

/-- solana_instruction::AccountMeta (key, writable flag, signer flag). -/
structure AccountMeta where
  pubkey : Pubkey
  is_writable : Bool
  is_signer : Bool
deriving DecidableEq, Repr

/-- solana_instruction::Instruction: resolved program id, resolved account
metas, raw payload bytes (bytes as `Nat`s). -/
structure Instruction where
  program_id : Pubkey
  accounts : List AccountMeta
  data : List Nat
deriving DecidableEq, Repr

/-- solana_message::compiled_instruction::CompiledInstruction: index of the
program id into the account-key table (`u8`), account indices (`u8`s), raw
data bytes. -/
structure CompiledInstruction where
  program_id_index : Nat
  accounts : List Nat
  data : List Nat
deriving DecidableEq, Repr

/-- solana_message::MessageHeader. -/
structure MessageHeader where
  num_required_signatures : Nat
  num_readonly_signed_accounts : Nat
  num_readonly_unsigned_accounts : Nat
deriving DecidableEq, Repr

/-- Legacy (fixed-layout) message: account-key table plus top-level compiled
instructions (the recent-blockhash field, unused by the extractor, is
omitted). -/
structure LegacyMessage where
  header : MessageHeader
  account_keys : List Pubkey
  instructions : List CompiledInstruction
deriving DecidableEq, Repr

/-- V0 message: like legacy but extra addresses may be loaded at execution
time (the address-table-lookups field, unused by the extractor, is omitted). -/
structure V0Message where
  header : MessageHeader
  account_keys : List Pubkey
  instructions : List CompiledInstruction
deriving DecidableEq, Repr

/-- solana_message::VersionedMessage. -/
inductive VersionedMessage where
  | legacy (m : LegacyMessage)
  | v0 (m : V0Message)
deriving DecidableEq, Repr

/-- solana_transaction_status::LoadedAddresses: addresses loaded at execution
time for a V0 transaction, split into writable and readonly partitions. -/
structure LoadedAddresses where
  writable : List Pubkey
  readonly : List Pubkey
deriving DecidableEq, Repr

/-- One inner instruction: the compiled instruction plus an optional explicit
stack-height hint (`Option<u32>` in the source). -/
structure InnerInstruction where
  instruction : CompiledInstruction
  stack_height : Option Nat
deriving DecidableEq, Repr

/-- solana_transaction_status::InnerInstructions: a group of inner
instructions tagged with the index (`u8`) of the top-level instruction they
nest under. -/
structure InnerInstructions where
  index : Nat
  instructions : List InnerInstruction
deriving DecidableEq, Repr

/-- Transaction status metadata; of its fields only the inner-instruction
groups and the loaded addresses are read by the extractor, the rest are
omitted. -/
structure TransactionStatusMeta where
  inner_instructions : Option (List InnerInstructions)
  loaded_addresses : LoadedAddresses
deriving DecidableEq, Repr

/-- TransactionMetadata from utils/instruction.rs (the signature abstracted to
`Nat`). The `Arc` sharing is irrelevant to the functional model; the record is
carried by value. -/
structure TransactionMetadata where
  slot : Nat
  signature : Nat
  fee_payer : Pubkey
  meta : TransactionStatusMeta
  message : VersionedMessage
deriving DecidableEq, Repr

/-- InstructionMetadata from utils/instruction.rs: owning transaction
metadata, 1-based stack height (`u32`), top-level instruction index (`u32`),
absolute path (`Vec<u8>`). -/
structure InstructionMetadata where
  transaction_metadata : TransactionMetadata
  stack_height : Nat
  index : Nat
  absolute_path : List Nat
deriving DecidableEq, Repr

/-- The extractor's output row type. -/
abbrev InstructionsWithMetadata : Type := List (InstructionMetadata × Instruction)

/-- NestedInstruction from utils/instruction.rs: an instruction, its
metadata, and its ordered children. -/
inductive NestedInstruction where
  | mk (metadata : InstructionMetadata) (instruction : Instruction)
      (inner_instructions : List NestedInstruction)

/-- The `NestedInstructions` newtype is a plain wrapper around
`Vec<NestedInstruction>` (Deref to slice); modelled as the list itself. -/
abbrev NestedInstructions : Type := List NestedInstruction

def NestedInstruction.metadata : NestedInstruction → InstructionMetadata
  | .mk m _ _ => m

def NestedInstruction.instruction : NestedInstruction → Instruction
  | .mk _ i _ => i

def NestedInstruction.inner_instructions : NestedInstruction → NestedInstructions
  | .mk _ _ c => c

/-! ## Flat extractor (utils/transformers.rs) -/

/-- build_instruction (transformers.rs:157). An out-of-range program-id index
degrades to the default (zero) key; account indices that do not resolve are
dropped by `filter_map`. -/
def build_instruction (account_keys : List Pubkey) (ins : CompiledInstruction)
    (is_writable is_signer : Pubkey → Nat → Bool) : Instruction :=
  let program_id := (account_keys[ins.program_id_index]?).getD 0
  let accounts := ins.accounts.filterMap fun account_idx =>
    (account_keys[account_idx]?).map fun key =>
      { pubkey := key
        is_writable := is_writable key account_idx
        is_signer := is_signer key account_idx : AccountMeta }
  { program_id := program_id, accounts := accounts, data := ins.data }

/-- The path-stack update of process_instructions (transformers.rs:128-132):
moving strictly deeper resets the counter at the new depth to 0, otherwise
the counter at the new depth is incremented (`u8` wrapping add, hence
`% 256`). -/
def innerPathStack (path_stack : List Nat) (prev_height : Nat) (inner_inst : InnerInstruction) :
    List Nat :=
  let stack_height := (inner_inst.stack_height).getD 1
  if prev_height < stack_height then
    path_stack.set (stack_height - 1) 0
  else
    path_stack.set (stack_height - 1)
      ((path_stack.getD (stack_height - 1) 0 + 1) % 256)

/-- The inner loop of process_instructions (transformers.rs:126-150) over one
inner-instruction group, carrying the running `path_stack` (an array of
`MAX_INSTRUCTION_STACK_DEPTH` `u8` counters) and `prev_height`. The Rust code
indexes `path_stack[stack_height - 1]`; for a stack height of `0` (usize
underflow) or above `MAX_INSTRUCTION_STACK_DEPTH` that indexing panics, which
is modelled as `none`. -/
def processInnerLoop (account_keys : List Pubkey) (tm : TransactionMetadata)
    (is_writable is_signer : Pubkey → Nat → Bool) (g_index : Nat) :
    List Nat → Nat → List InnerInstruction → Option InstructionsWithMetadata
  | _, _, [] => some []
  | path_stack, prev_height, inner_inst :: rest =>
    let stack_height := (inner_inst.stack_height).getD 1
    if stack_height = 0 ∨ MAX_INSTRUCTION_STACK_DEPTH < stack_height then
      none
    else
      let path_stack' := innerPathStack path_stack prev_height inner_inst
      match processInnerLoop account_keys tm is_writable is_signer g_index
          path_stack' stack_height rest with
      | none => none
      | some tail =>
        some (({ transaction_metadata := tm
                 stack_height := stack_height
                 index := g_index
                 absolute_path := path_stack'.take stack_height : InstructionMetadata },
               build_instruction account_keys inner_inst.instruction is_writable is_signer)
              :: tail)

/-- The scan over all inner-instruction groups for top-level index `i`
(transformers.rs:120-121): every group whose `index` equals `i` contributes
its instructions, with a fresh `path_stack` whose slot 0 holds the group
index. -/
def processGroups (account_keys : List Pubkey) (tm : TransactionMetadata)
    (is_writable is_signer : Pubkey → Nat → Bool) (i : Nat) :
    List InnerInstructions → Option InstructionsWithMetadata
  | [] => some []
  | g :: gs =>
    if g.index = i then
      match processInnerLoop account_keys tm is_writable is_signer g.index
          ((List.replicate MAX_INSTRUCTION_STACK_DEPTH 0).set 0 g.index) 0
          g.instructions with
      | none => none
      | some entries =>
        (processGroups account_keys tm is_writable is_signer i gs).map
          fun rest => entries ++ rest
    else
      processGroups account_keys tm is_writable is_signer i gs

/-- The outer loop of process_instructions (transformers.rs:108-154):
for the `i`-th top-level instruction, push its own row (stack height 1, index
`i as u32`, path `vec![i as u8]`), then the rows of its inner groups. -/
def processInstructionsLoop (account_keys : List Pubkey)
    (inner : Option (List InnerInstructions)) (tm : TransactionMetadata)
    (is_writable is_signer : Pubkey → Nat → Bool) :
    Nat → List CompiledInstruction → Option InstructionsWithMetadata
  | _, [] => some []
  | i, compiled_instruction :: rest =>
    let top : InstructionMetadata × Instruction :=
      ({ transaction_metadata := tm
         stack_height := 1
         index := i % 2 ^ 32
         absolute_path := [i % 256] : InstructionMetadata },
       build_instruction account_keys compiled_instruction is_writable is_signer)
    let innerRows : Option InstructionsWithMetadata :=
      processGroups account_keys tm is_writable is_signer i (inner.getD [])
    match innerRows with
    | none => none
    | some rows =>
      match processInstructionsLoop account_keys inner tm is_writable is_signer
          (i + 1) rest with
      | none => none
      | some restRows => some (top :: rows ++ restRows)

/-- process_instructions (transformers.rs:96). -/
def process_instructions (account_keys : List Pubkey)
    (instructions : List CompiledInstruction)
    (inner : Option (List InnerInstructions)) (tm : TransactionMetadata)
    (is_writable is_signer : Pubkey → Nat → Bool) :
    Option InstructionsWithMetadata :=
  processInstructionsLoop account_keys inner tm is_writable is_signer 0 instructions

/-- extract_instructions_with_metadata (transformers.rs:51). The legacy
message's `is_maybe_writable`/`is_signer` predicates live in the external
`solana_message` crate and are taken as parameters; the V0 branch's predicates
are written out in the source and modelled exactly: writable iff the key
occurs among the loaded writable addresses, signer iff the index is below
`num_required_signatures`. -/
def extract_instructions_with_metadata
    (legacy_is_maybe_writable legacy_is_signer : LegacyMessage → Nat → Bool)
    (transaction_metadata : TransactionMetadata)
    (message : VersionedMessage) (meta : TransactionStatusMeta) :
    Option InstructionsWithMetadata :=
  match message with
  | .legacy legacy =>
    process_instructions legacy.account_keys legacy.instructions
      meta.inner_instructions transaction_metadata
      (fun _ idx => legacy_is_maybe_writable legacy idx)
      (fun _ idx => legacy_is_signer legacy idx)
  | .v0 v0 =>
    let account_keys :=
      v0.account_keys ++ meta.loaded_addresses.writable ++ meta.loaded_addresses.readonly
    process_instructions account_keys v0.instructions
      meta.inner_instructions transaction_metadata
      (fun key _ => meta.loaded_addresses.writable.contains key)
      (fun _ idx => decide (idx < v0.header.num_required_signatures))

/-! ## Hierarchy builder (utils/instruction.rs)

The Rust builder keeps `level_ptrs : [Option<*mut NestedInstruction>; MAX]`,
raw pointers at the last node appended per depth. Nodes are only ever
appended (never removed or re-ordered), so a live pointer is equivalently a
stable access path into the forest under construction: a list of child
indices, `[i]` naming the `i`-th root, `i :: p` naming the node at path `p`
inside the `i`-th root's children. The model stores these paths. -/

/-- Replace the `n`-th element of a list by `f` applied to it (identity when
out of range). -/
def listModify (f : α → α) : Nat → List α → List α
  | _, [] => []
  | 0, a :: as => f a :: as
  | n + 1, a :: as => a :: listModify f n as

/-- Node access along a path ( `[i]` is the `i`-th tree of the forest ). -/
def getAt : List Nat → NestedInstructions → Option NestedInstruction
  | [], _ => none
  | [i], f => f.get? i
  | i :: p, f => (f.get? i).bind fun nd => getAt p nd.inner_instructions

/-- `(*parent_ptr).inner_instructions.push(new)` for the parent at the given
path: append `c` to the child list of the addressed node. -/
def pushChildAt (c : NestedInstruction) : List Nat → NestedInstructions → NestedInstructions
  | [], f => f
  | [i], f =>
    listModify (fun nd => .mk nd.metadata nd.instruction (nd.inner_instructions ++ [c])) i f
  | i :: p, f =>
    listModify (fun nd => .mk nd.metadata nd.instruction (pushChildAt c p nd.inner_instructions)) i f

/-- The builder state (named `UnsafeNestedBuilder` in the source): the forest
built so far and the per-depth reference to the last node appended at that
depth, a raw pointer in Rust, an access path here. The `capacity` passed to
`new` only pre-sizes the allocation and has no functional effect. -/
structure NestedBuilder where
  nested_ixs : NestedInstructions
  level_ptrs : Nat → Option (List Nat)

/-- One iteration of the builder loop (instruction.rs:172-207).
`assert!(stack_height > 0)` and `assert!(stack_height <= MAX)` become `none`;
then level pointers at depth `stack_height` and deeper are cleared; a
height-1 node is pushed as a new root; otherwise the node is appended under
the recorded parent reference at depth `stack_height - 2` — when no such
reference exists (`if let` falls through), the node is silently dropped. -/
def buildStep (st : NestedBuilder) (e : InstructionMetadata × Instruction) :
    Option NestedBuilder :=
  let stack_height := e.1.stack_height
  if stack_height = 0 then none
  else if MAX_INSTRUCTION_STACK_DEPTH < stack_height then none
  else
    let ptrs : Nat → Option (List Nat) :=
      fun k => if stack_height ≤ k then none else st.level_ptrs k
    if stack_height = 1 then
      let f := st.nested_ixs ++ [.mk e.1 e.2 []]
      some { nested_ixs := f
             level_ptrs := fun k => if k = 0 then some [f.length - 1] else ptrs k }
    else
      match ptrs (stack_height - 2) with
      | some parent_ptr =>
        match getAt parent_ptr st.nested_ixs with
        | some parent =>
          let f := pushChildAt (.mk e.1 e.2 []) parent_ptr st.nested_ixs
          some { nested_ixs := f
                 level_ptrs := fun k =>
                   if k = stack_height - 1 then
                     some (parent_ptr ++ [parent.inner_instructions.length])
                   else ptrs k }
        | none => some { nested_ixs := st.nested_ixs, level_ptrs := ptrs }
      | none => some { nested_ixs := st.nested_ixs, level_ptrs := ptrs }

/-- The builder loop of `build` (instruction.rs:171-209); a failed assertion
aborts the whole build. -/
def buildLoop : NestedBuilder → InstructionsWithMetadata → Option NestedInstructions
  | st, [] => some st.nested_ixs
  | st, e :: rest =>
    match buildStep st e with
    | none => none
    | some st' => buildLoop st' rest

/-- `UnsafeNestedBuilder::new(capacity)` followed by `build`, i.e. the
`From<InstructionsWithMetadata> for NestedInstructions` conversion
(instruction.rs:138-151). The capacity estimate only affects allocation. -/
def nestedInstructionsFrom (instructions : InstructionsWithMetadata) :
    Option NestedInstructions :=
  buildLoop { nested_ixs := [], level_ptrs := fun _ => none } instructions

/-- Pre-order (parent first, children in order) flattening of a forest. -/
def flattenForest : NestedInstructions → InstructionsWithMetadata
  | [] => []
  | .mk m i inner :: rest => (m, i) :: (flattenForest inner ++ flattenForest rest)

/-- Pre-order listing of the nodes of a forest. -/
def preorderForest : NestedInstructions → List NestedInstruction
  | [] => []
  | .mk m i inner :: rest =>
    .mk m i inner :: (preorderForest inner ++ preorderForest rest)

/-- Rightmost spine path of a forest at 1-based depth `d`: the path to the
last tree's last child's ... node at depth `d` (none when the forest does not
reach that depth). Live builder level pointers always address these nodes. -/
def rspine : Nat → NestedInstructions → Option (List Nat)
  | 0, _ => none
  | 1, [] => none
  | 1, f => some [f.length - 1]
  | d + 2, f =>
    match f.getLast? with
    | none => none
    | some nd => (rspine (d + 1) nd.inner_instructions).map fun p => (f.length - 1) :: p

/-- Well-formed flat input: the protocol pre-order contract. Stack heights
are within `[1, MAX_INSTRUCTION_STACK_DEPTH]`, a non-empty list starts at
height 1, and each height exceeds its predecessor by at most one — exactly
the sequences that arise as pre-order flattenings of a forest. -/
def WellFormedInput (l : InstructionsWithMetadata) : Prop :=
  (∀ e ∈ l, 1 ≤ e.1.stack_height ∧ e.1.stack_height ≤ MAX_INSTRUCTION_STACK_DEPTH) ∧
  (∀ e, l.head? = some e → e.1.stack_height = 1) ∧
  l.Chain' (fun a b => b.1.stack_height ≤ a.1.stack_height + 1)

/-- The builder-state invariant: for some `m ≤ MAX_INSTRUCTION_STACK_DEPTH`,
exactly the level pointers below `m` are live, and the pointer at slot `k`
addresses the rightmost-spine node of the forest at depth `k + 1` (the last
node appended at that depth). -/
def builderInv (f : NestedInstructions) (ptrs : Nat → Option (List Nat)) (m : Nat) : Prop :=
  m ≤ MAX_INSTRUCTION_STACK_DEPTH ∧
  (∀ k, k < m → ptrs k = rspine (k + 1) f ∧ (rspine (k + 1) f).isSome) ∧
  (∀ k, m ≤ k → ptrs k = none)

/-! ## Recursive pipeline (utils/instruction.rs) -/

/-- DecodedInstruction from utils/instruction.rs. -/
structure DecodedInstruction (T : Type) where
  program_id : Pubkey
  data : T
  accounts : List AccountMeta
deriving DecidableEq, Repr

/-- The processor input tuple `InstructionProcessorInputType<T>`. -/
abbrev InstructionProcessorInputType (T : Type) : Type :=
  InstructionMetadata × DecodedInstruction T × NestedInstructions × Instruction

/-- InstructionPipe: a decoder (returns `none` for "not applicable"), a
processor that can fail with an error of type `ε` (`CarbonResult<()>`), and
filters. The filters are opaque capability objects never consulted inside
`run` (only exposed through the `filters()` accessor), so their type is a
parameter; the metrics handle is likewise opaque and passed through, and is
omitted from the model. -/
structure InstructionPipe (T ε φ : Type) where
  decoder : Instruction → Option (DecodedInstruction T)
  processor : InstructionProcessorInputType T → Except ε Unit
  filters : List φ

/-- Observable events of one pipeline run: the decoder being invoked on a
node, and the processor being invoked on a decoded input. -/
inductive RunEvent (T : Type) where
  | decodeAttempt (node : NestedInstruction)
  | processCall (input : InstructionProcessorInputType T)

/-- `filters()` accessor. -/
def InstructionPipe.filtersOf (p : InstructionPipe T ε φ) : List φ := p.filters

mutual

/-- `InstructionPipe::run` (instruction.rs:348-380): decode the node; on
success invoke the processor (its error aborts via `?`); then recurse into
the children in order (each child's error aborts via `?`). The second
component records the decoder/processor invocations in order. -/
def runNode (p : InstructionPipe T ε φ) :
    NestedInstruction → Except ε Unit × List (RunEvent T)
  | .mk md ins inner =>
    match p.decoder ins with
    | some d =>
      match p.processor (md, d, inner, ins) with
      | .error e =>
        (.error e, [.decodeAttempt (.mk md ins inner), .processCall (md, d, inner, ins)])
      | .ok _ =>
        let r := runChildren p inner
        (r.1, .decodeAttempt (.mk md ins inner) :: .processCall (md, d, inner, ins) :: r.2)
    | none =>
      let r := runChildren p inner
      (r.1, .decodeAttempt (.mk md ins inner) :: r.2)

/-- The `for nested_inner_instruction in ... { self.run(...)? }` loop. -/
def runChildren (p : InstructionPipe T ε φ) :
    NestedInstructions → Except ε Unit × List (RunEvent T)
  | [] => (.ok (), [])
  | c :: cs =>
    match runNode p c with
    | (.error e, evs) => (.error e, evs)
    | (.ok _, evs) =>
      let r := runChildren p cs
      (r.1, evs ++ r.2)

end

/-- The events one node itself contributes: a decode attempt, then a
processor call when decoding succeeds. -/
def nodeEvents (p : InstructionPipe T ε φ) (n : NestedInstruction) : List (RunEvent T) :=
  .decodeAttempt n ::
    (match p.decoder n.instruction with
     | some d => [.processCall (n.metadata, d, n.inner_instructions, n.instruction)]
     | none => [])

/-- Reference semantics: process a pre-order node list linearly, stopping at
the first processor failure. `runNode` is proved equal to `linearRun` on the
pre-order listing of the tree. -/
def linearRun (p : InstructionPipe T ε φ) :
    List NestedInstruction → Except ε Unit × List (RunEvent T)
  | [] => (.ok (), [])
  | n :: rest =>
    match p.decoder n.instruction with
    | none =>
      let r := linearRun p rest
      (r.1, .decodeAttempt n :: r.2)
    | some d =>
      match p.processor (n.metadata, d, n.inner_instructions, n.instruction) with
      | .error e =>
        (.error e, [.decodeAttempt n, .processCall (n.metadata, d, n.inner_instructions, n.instruction)])
      | .ok _ =>
        let r := linearRun p rest
        (r.1, .decodeAttempt n ::
          .processCall (n.metadata, d, n.inner_instructions, n.instruction) :: r.2)

/-- Sequencing of two run results: an error in the first short-circuits,
otherwise events concatenate (the shape of `?`-propagation in a loop). -/
def seqRun (a : Except ε Unit × List (RunEvent T))
    (k : Unit → Except ε Unit × List (RunEvent T)) :
    Except ε Unit × List (RunEvent T) :=
  match a with
  | (.error e, evs) => (.error e, evs)
  | (.ok _, evs) => ((k ()).1, evs ++ (k ()).2)

/-! ## Relations and spec-side reference shapes used by the claims -/

/-- The consecutive-entry relation of the path-monotonicity property, with
"the most recent earlier entry whose depth reached `d2`" resolved to the
immediately preceding entry (which always reaches depth `d2` when
`d2 ≤ d1`): when the depth strictly increases, the new path's element at its
own depth is 0; otherwise the element at the new depth increments by one. -/
def c4Rel (e1 e2 : InstructionMetadata × Instruction) : Prop :=
  (e1.1.stack_height < e2.1.stack_height →
    e2.1.absolute_path.get? (e2.1.stack_height - 1) = some 0) ∧
  (e2.1.stack_height ≤ e1.1.stack_height →
    e2.1.absolute_path.get? (e2.1.stack_height - 1) =
      (e1.1.absolute_path.get? (e2.1.stack_height - 1)).map (· + 1))

/-- The most recent entry at position ≤ `k` of `l` whose stack height
reaches depth `d` (used to state the claim's original wording). -/
def mostRecentAtDepth (l : InstructionsWithMetadata) (k d : Nat) :
    Option (InstructionMetadata × Instruction) :=
  (l.take (k + 1)).reverse.find? fun e => d ≤ e.1.stack_height

/-- The path-monotonicity claim in its original wording, as a predicate on
the extractor's output list. -/
def pathMonotonicityStated (l : InstructionsWithMetadata) : Prop :=
  ∀ k e1 e2, l.get? k = some e1 → l.get? (k + 1) = some e2 →
    (e1.1.stack_height < e2.1.stack_height →
      e2.1.absolute_path.get? (e2.1.stack_height - 1) = some 0) ∧
    (e2.1.stack_height ≤ e1.1.stack_height →
      ∀ e0, mostRecentAtDepth l k e2.1.stack_height = some e0 →
        e2.1.absolute_path.get? (e2.1.stack_height - 1) =
          (e0.1.absolute_path.get? (e2.1.stack_height - 1)).map (· + 1))

/-- Modelled from the spec: the expected skeleton of the extractor's output —
for every top-level instruction `i` in order, the top-level row (stack height
1, path `[i]` as a `u8`), then for each inner group naming `i`, its rows with
stack height equal to the hint (1 when absent); inner-row paths are computed
incrementally and left unconstrained here (`none`). -/
def specFlatSkeleton (account_keys : List Pubkey)
    (is_writable is_signer : Pubkey → Nat → Bool)
    (inner : Option (List InnerInstructions)) :
    Nat → List CompiledInstruction → List (Nat × Option (List Nat) × Instruction)
  | _, [] => []
  | i, ci :: rest =>
    (1, some [i % 256], build_instruction account_keys ci is_writable is_signer) ::
      ((((inner.getD []).filter fun g => decide (g.index = i)).flatMap fun g =>
          g.instructions.map fun ii =>
            (ii.stack_height.getD 1, none,
             build_instruction account_keys ii.instruction is_writable is_signer))
       ++ specFlatSkeleton account_keys is_writable is_signer inner (i + 1) rest)

/-- An output row matches a skeleton row: same stack height, same
instruction, and the path equals the skeleton's whenever the skeleton
constrains it. -/
def rowMatches (e : InstructionMetadata × Instruction)
    (s : Nat × Option (List Nat) × Instruction) : Prop :=
  e.1.stack_height = s.1 ∧ (∀ p, s.2.1 = some p → e.1.absolute_path = p) ∧ e.2 = s.2.2

/-- Every inner-instruction hint, defaulted to 1, lies in
`[1, MAX_INSTRUCTION_STACK_DEPTH]` (the indexable range of the path stack). -/
def HintsInRange (inner : Option (List InnerInstructions)) : Prop :=
  ∀ gs, inner = some gs → ∀ g ∈ gs, ∀ ii ∈ g.instructions,
    1 ≤ ii.stack_height.getD 1 ∧ ii.stack_height.getD 1 ≤ MAX_INSTRUCTION_STACK_DEPTH

/-- The strict protocol shape of inner-instruction groups: pairwise distinct
group indices, at most 255 instructions per group (so `u8` sibling counters
cannot wrap), and every instruction carrying an explicit stack-height hint in
`[2, MAX_INSTRUCTION_STACK_DEPTH]`. -/
def StrictHints (inner : Option (List InnerInstructions)) : Prop :=
  ∀ gs, inner = some gs →
    (gs.map (fun g => g.index)).Nodup ∧
    ∀ g ∈ gs, g.instructions.length ≤ 255 ∧
      ∀ ii ∈ g.instructions, ∃ hh, ii.stack_height = some hh ∧
        2 ≤ hh ∧ hh ≤ MAX_INSTRUCTION_STACK_DEPTH

/-! ## Concrete sample inputs for witnesses and counterexamples -/

/-- A sample transaction metadata record. -/
def tmSample : TransactionMetadata :=
  { slot := 0, signature := 0, fee_payer := 0
    meta := { inner_instructions := none
              loaded_addresses := { writable := [], readonly := [] } }
    message := .legacy { header := ⟨0, 0, 0⟩, account_keys := [], instructions := [] } }

/-- Sample instruction metadata at a given stack height and path. -/
def mdSample (h : Nat) (path : List Nat) : InstructionMetadata :=
  { transaction_metadata := tmSample, stack_height := h, index := 0, absolute_path := path }

/-- Sample resolved instruction with one payload byte. -/
def insSample (n : Nat) : Instruction := { program_id := 0, accounts := [], data := [n] }

/-- Sample compiled instruction with one payload byte. -/
def ciSample (n : Nat) : CompiledInstruction := { program_id_index := 0, accounts := [], data := [n] }

/-- Well-formed builder input: two roots, the first with two depth-2
children (the spec's §8 scenario). -/
def wfSampleInput : InstructionsWithMetadata :=
  [(mdSample 1 [0], insSample 0), (mdSample 2 [0, 0], insSample 1),
   (mdSample 2 [0, 1], insSample 2), (mdSample 1 [1], insSample 3)]

/-- A single depth-2 entry with no preceding root: its parent reference is
missing. -/
def orphanInput : InstructionsWithMetadata := [(mdSample 2 [0, 0], insSample 0)]

/-- Sample tree for the pipeline: a root with two leaf children. -/
def sampleTree : NestedInstruction :=
  .mk (mdSample 1 [0]) (insSample 1)
    [.mk (mdSample 2 [0, 0]) (insSample 2) [], .mk (mdSample 2 [0, 1]) (insSample 3) []]

/-- A pipe whose decoder always succeeds and whose processor always
succeeds. -/
def okPipe : InstructionPipe Unit Nat Unit :=
  { decoder := fun _ => some { program_id := 0, data := (), accounts := [] }
    processor := fun _ => .ok ()
    filters := [] }

/-- A pipe whose decoder always succeeds and whose processor always fails
with error 7. -/
def failPipe : InstructionPipe Unit Nat Unit :=
  { decoder := fun _ => some { program_id := 0, data := (), accounts := [] }
    processor := fun _ => .error 7
    filters := [] }

/-- An inner group whose single instruction carries the out-of-range
stack-height hint 0. -/
def hint0Group : InnerInstructions := { index := 0, instructions := [⟨ciSample 10, some 0⟩] }

/-- An inner group whose single instruction carries no stack-height hint. -/
def noHintGroup : InnerInstructions := { index := 0, instructions := [⟨ciSample 10, none⟩] }

/-- An inner group with two depth-2 instructions (the spec's §8 scenario). -/
def sampleGroup : InnerInstructions :=
  { index := 0, instructions := [⟨ciSample 10, some 2⟩, ⟨ciSample 11, some 2⟩] }

/-- The extractor's output on one top-level instruction (key table `[7]`)
with the hint-free inner group `noHintGroup`: the inner instruction defaults
to stack height 1 and its path counter is reset, yielding two consecutive
rows of height 1 whose paths are both `[0]`. -/
def noHintOut : InstructionsWithMetadata :=
  [({ transaction_metadata := tmSample, stack_height := 1, index := 0, absolute_path := [0] },
    { program_id := 7, accounts := [], data := [0] }),
   ({ transaction_metadata := tmSample, stack_height := 1, index := 0, absolute_path := [0] },
    { program_id := 7, accounts := [], data := [10] })]

/-- A sample V0 message: two static keys, one loaded writable and one loaded
readonly key; one instruction referencing all four. -/
def v0Sample : V0Message :=
  { header := ⟨1, 0, 0⟩, account_keys := [10, 20]
    instructions := [{ program_id_index := 0, accounts := [0, 1, 2, 3], data := [] }] }

/-- Status metadata for `v0Sample`: key 30 loaded writable, key 40 loaded
readonly, no inner instructions. -/
def v0SampleMeta : TransactionStatusMeta :=
  { inner_instructions := none, loaded_addresses := { writable := [30], readonly := [40] } }

/-- The extractor's output on `v0Sample`/`v0SampleMeta`: only the loaded
writable key 30 is marked writable — the static keys 10 and 20 are not. -/
def v0SampleOut : InstructionsWithMetadata :=
  [({ transaction_metadata := tmSample, stack_height := 1, index := 0, absolute_path := [0] },
    { program_id := 10
      accounts := [{ pubkey := 10, is_writable := false, is_signer := true },
                   { pubkey := 20, is_writable := false, is_signer := false },
                   { pubkey := 30, is_writable := true, is_signer := false },
                   { pubkey := 40, is_writable := false, is_signer := false }]
      data := [] })]

/-! ## Pipeline lemmas -/

theorem preorderForest_cons (x : NestedInstruction) (rest : NestedInstructions) :
    preorderForest (x :: rest) = preorderForest [x] ++ preorderForest rest := by
  cases x with
  | mk m i inner => simp [preorderForest]

theorem linearRun_append (p : InstructionPipe T ε φ) (A B : List NestedInstruction) :
    linearRun p (A ++ B) = seqRun (linearRun p A) fun _ => linearRun p B := by
  induction A with
  | nil => simp [linearRun, seqRun]
  | cons n rest ih =>
    rw [List.cons_append, linearRun, linearRun]
    cases hd : p.decoder n.instruction with
    | none =>
      cases hr : linearRun p rest with
      | mk r evs => cases r <;> simp [seqRun, ih, hr]
    | some d =>
      cases hp : p.processor (n.metadata, d, n.inner_instructions, n.instruction) with
      | error e => simp [seqRun, hp]
      | ok u =>
        cases hr : linearRun p rest with
        | mk r evs => cases r <;> simp [seqRun, ih, hr, hp]

theorem runChildren_cons (p : InstructionPipe T ε φ) (c : NestedInstruction)
    (cs : NestedInstructions) :
    runChildren p (c :: cs) = seqRun (runNode p c) fun _ => runChildren p cs := by
  rw [runChildren]
  cases h : runNode p c with
  | mk r evs => cases r <;> simp [seqRun]

mutual

theorem runNode_eq_linear (p : InstructionPipe T ε φ) (n : NestedInstruction) :
    runNode p n = linearRun p (preorderForest [n]) := by
  cases n with
  | mk md ins inner =>
    have hc := runChildren_eq_linear p inner
    rw [runNode]
    simp only [preorderForest, List.append_nil]
    rw [linearRun]
    simp only [NestedInstruction.instruction, NestedInstruction.metadata,
      NestedInstruction.inner_instructions]
    cases hd : p.decoder ins with
    | none => simp [hd, hc]
    | some d =>
      cases hp : p.processor (md, d, inner, ins) with
      | error e => simp [hd, hp]
      | ok u => simp [hd, hp, hc]
termination_by sizeOf n

theorem runChildren_eq_linear (p : InstructionPipe T ε φ) (f : NestedInstructions) :
    runChildren p f = linearRun p (preorderForest f) := by
  cases f with
  | nil => simp [runChildren, preorderForest, linearRun]
  | cons c cs =>
    have h1 := runNode_eq_linear p c
    have h2 := runChildren_eq_linear p cs
    rw [preorderForest_cons, linearRun_append, ← h1, ← h2, runChildren_cons]
termination_by sizeOf f

end

theorem linearRun_all_ok (p : InstructionPipe T ε φ)
    (hp : ∀ x, p.processor x = .ok ()) (L : List NestedInstruction) :
    linearRun p L = (.ok (), L.flatMap (nodeEvents p)) := by
  induction L with
  | nil => simp [linearRun]
  | cons n rest ih =>
    cases hd : p.decoder n.instruction <;>
      simp [linearRun, nodeEvents, hd, hp, ih]

theorem linearRun_split (p : InstructionPipe T ε φ) (n : NestedInstruction)
    (l2 : List NestedInstruction) (dn : DecodedInstruction T) (e : ε)
    (hd : p.decoder n.instruction = some dn)
    (hp : p.processor (n.metadata, dn, n.inner_instructions, n.instruction) = .error e)
    (l1 : List NestedInstruction) :
    (∀ m ∈ l1, ∀ d, p.decoder m.instruction = some d →
       p.processor (m.metadata, d, m.inner_instructions, m.instruction) = .ok ()) →
    linearRun p (l1 ++ n :: l2) =
      (.error e, l1.flatMap (nodeEvents p) ++
        [.decodeAttempt n,
         .processCall (n.metadata, dn, n.inner_instructions, n.instruction)]) := by
  induction l1 with
  | nil =>
    intro _
    simp [linearRun, hd, hp]
  | cons m rest ih =>
    intro h1
    have hrest := ih fun x hx d hxd => h1 x (by simp [hx]) d hxd
    cases hdm : p.decoder m.instruction with
    | none => simp [linearRun, nodeEvents, hdm, hrest]
    | some d =>
      have hm := h1 m (by simp) d hdm
      simp [linearRun, nodeEvents, hdm, hm, hrest]

/-! ## Claims C5 and C6: the recursive pipeline -/

/-- C5: for every tree and every decoder/processor pair, `run` visits the
nodes in pre-order depth-first order, attempting to decode each one, and
invokes the processor exactly on the nodes whose decode succeeds; a node
whose decode reports not-applicable has its processor skipped but its
children still visited, and decode failure never aborts the traversal
(stated under a processor that never fails, so that the whole traversal is
observable). -/
theorem run_visits_preorder_and_processes_decodable (p : InstructionPipe T ε φ)
    (n : NestedInstruction) (hp : ∀ x, p.processor x = .ok ()) :
    runNode p n = (.ok (), (preorderForest [n]).flatMap (nodeEvents p)) := by
  rw [runNode_eq_linear, linearRun_all_ok p hp]

/-- Witness for C5 at a concrete tree (a root with two leaf children) and an
always-decoding, always-succeeding pipe. -/
theorem run_visits_preorder_and_processes_decodable_witness :
    runNode okPipe sampleTree =
      (.ok (), (preorderForest [sampleTree]).flatMap (nodeEvents okPipe)) :=
  run_visits_preorder_and_processes_decodable okPipe sampleTree fun _ => rfl

/-- C6: if the processor fails on some node `n` of the pre-order traversal
(all earlier decodable nodes having processed successfully), `run` returns
that error verbatim and no node after `n` in the traversal — `n`'s
still-unvisited children and all subsequent nodes are exactly `l2` — has its
decoder or processor invoked: the event trace stops at `n`'s processor
call. -/
theorem run_fail_fast_propagates (p : InstructionPipe T ε φ)
    (root n : NestedInstruction) (l1 l2 : List NestedInstruction)
    (dn : DecodedInstruction T) (e : ε)
    (hsplit : preorderForest [root] = l1 ++ n :: l2)
    (h1 : ∀ m ∈ l1, ∀ d, p.decoder m.instruction = some d →
       p.processor (m.metadata, d, m.inner_instructions, m.instruction) = .ok ())
    (hd : p.decoder n.instruction = some dn)
    (hp : p.processor (n.metadata, dn, n.inner_instructions, n.instruction) = .error e) :
    runNode p root =
      (.error e, l1.flatMap (nodeEvents p) ++
        [.decodeAttempt n,
         .processCall (n.metadata, dn, n.inner_instructions, n.instruction)]) := by
  rw [runNode_eq_linear, hsplit, linearRun_split p n l2 dn e hd hp l1 h1]

/-- Witness for C6: the processor fails at the root of `sampleTree`, which
still has two unvisited children; the run returns error 7 and the trace
contains no event for either child. -/
theorem run_fail_fast_propagates_witness :
    runNode failPipe sampleTree =
      (.error 7, [.decodeAttempt sampleTree,
        .processCall (sampleTree.metadata, { program_id := 0, data := (), accounts := [] },
          sampleTree.inner_instructions, sampleTree.instruction)]) := by
  have h := run_fail_fast_propagates failPipe sampleTree sampleTree []
    [.mk (mdSample 2 [0, 0]) (insSample 2) [], .mk (mdSample 2 [0, 1]) (insSample 3) []]
    { program_id := 0, data := (), accounts := [] } 7
    (by simp [sampleTree, preorderForest]) (by simp) rfl rfl
  simpa using h

/-! ## Builder lemmas -/

theorem flattenForest_append (A B : NestedInstructions) :
    flattenForest (A ++ B) = flattenForest A ++ flattenForest B := by
  induction A with
  | nil => simp [flattenForest]
  | cons x rest ih =>
    cases x with
    | mk m i inner => simp [flattenForest, ih]

theorem listModify_length (f : α → α) (n : Nat) (l : List α) :
    (listModify f n l).length = l.length := by
  induction l generalizing n with
  | nil => simp [listModify]
  | cons a as ih =>
    cases n with
    | zero => simp [listModify]
    | succ n => simp [listModify, ih]

theorem listModify_concat_self (f : α → α) (l0 : List α) (a : α) :
    listModify f l0.length (l0 ++ [a]) = l0 ++ [f a] := by
  induction l0 with
  | nil => simp [listModify]
  | cons b bs ih => simp [listModify, ih]

theorem rspine_one (f : NestedInstructions) (hf : f ≠ []) :
    rspine 1 f = some [f.length - 1] := by
  cases f with
  | nil => exact absurd rfl hf
  | cons a as => simp [rspine]

theorem rspine_length : ∀ (d : Nat) (f : NestedInstructions) (p : List Nat),
    rspine d f = some p → p.length = d := by
  intro d
  induction d using Nat.twoStepInduction with
  | zero => intro f p h; simp [rspine] at h
  | one =>
    intro f p h
    cases f with
    | nil => simp [rspine] at h
    | cons a as =>
      simp [rspine] at h
      simp [← h]
  | more d _ ih =>
    intro f p h
    simp only [rspine] at h
    cases hl : f.getLast? with
    | none => rw [hl] at h; simp at h
    | some nd =>
      rw [hl] at h
      simp only [Option.map_eq_some'] at h
      obtain ⟨q, hq, hp⟩ := h
      have := ih nd.inner_instructions q hq
      simp [← hp, this]

theorem rspine_succ_succ (d : Nat) (f : NestedInstructions) (x : NestedInstruction)
    (hx : f.getLast? = some x) :
    rspine (d + 2) f =
      (rspine (d + 1) x.inner_instructions).map fun p => (f.length - 1) :: p := by
  simp only [rspine]
  rw [hx]

/-- The spine master lemma: a live spine path at depth `d` resolves to a
node; pushing a (childless) node under it appends exactly that node's row at
the end of the pre-order flattening, extends the spine by one level, and
leaves the spine at depths up to `d` unchanged; moreover spine paths at
shallower depths are prefixes of `p`. -/
theorem rspine_spec (cm : InstructionMetadata) (ci : Instruction) :
    ∀ (d : Nat) (f : NestedInstructions) (p : List Nat), rspine d f = some p →
    ∃ nd, getAt p f = some nd ∧
      flattenForest (pushChildAt (.mk cm ci []) p f) = flattenForest f ++ [(cm, ci)] ∧
      rspine (d + 1) (pushChildAt (.mk cm ci []) p f) =
        some (p ++ [nd.inner_instructions.length]) ∧
      (∀ d', 1 ≤ d' → d' ≤ d → rspine d' f = some (p.take d')) ∧
      (∀ d', d' ≤ d → rspine d' (pushChildAt (.mk cm ci []) p f) = rspine d' f) := by
  intro d
  induction d using Nat.twoStepInduction with
  | zero => intro f p h; simp [rspine] at h
  | one =>
    intro f p h
    have hf : f ≠ [] := by
      intro hf; rw [hf] at h; simp [rspine] at h
    rw [rspine_one f hf] at h
    obtain ⟨f0, x, hx⟩ : ∃ f0 x, f = f0 ++ [x] := by
      rcases List.eq_nil_or_concat f with h0 | ⟨L, b, hLb⟩
      · exact absurd h0 hf
      · exact ⟨L, b, by simpa using hLb⟩
    subst hx
    have hlen : (f0 ++ [x]).length - 1 = f0.length := by simp
    have hp : p = [f0.length] := by
      have := h.symm
      simp only [Option.some.injEq] at this
      rw [this, hlen]
    subst hp
    cases x with
    | mk xm xi xinner =>
      refine ⟨.mk xm xi xinner, ?_, ?_, ?_, ?_, ?_⟩
      · simp [getAt, List.get?_concat_length]
      · rw [show pushChildAt (.mk cm ci []) [f0.length] (f0 ++ [.mk xm xi xinner]) =
            listModify (fun nd =>
              .mk nd.metadata nd.instruction (nd.inner_instructions ++ [.mk cm ci []]))
              f0.length (f0 ++ [.mk xm xi xinner]) from rfl]
        rw [listModify_concat_self]
        simp [flattenForest_append, flattenForest, NestedInstruction.metadata,
          NestedInstruction.instruction, NestedInstruction.inner_instructions]
      · rw [show pushChildAt (.mk cm ci []) [f0.length] (f0 ++ [.mk xm xi xinner]) =
            listModify (fun nd =>
              .mk nd.metadata nd.instruction (nd.inner_instructions ++ [.mk cm ci []]))
              f0.length (f0 ++ [.mk xm xi xinner]) from rfl]
        rw [listModify_concat_self]
        simp only [NestedInstruction.metadata, NestedInstruction.instruction,
          NestedInstruction.inner_instructions]
        show rspine (0 + 2) _ = _
        rw [rspine_succ_succ 0 _ _ (List.getLast?_concat _)]
        simp only [NestedInstruction.inner_instructions, Nat.zero_add]
        rw [rspine_one (xinner ++ [NestedInstruction.mk cm ci []]) (by simp)]
        simp
      · intro d' h1 h2
        have : d' = 1 := by omega
        subst this
        rw [rspine_one _ hf, hlen]
        simp
      · intro d' hd'
        interval_cases d'
        · simp [rspine]
        · rw [rspine_one _ hf]
          rw [show pushChildAt (.mk cm ci []) [f0.length] (f0 ++ [.mk xm xi xinner]) =
              listModify (fun nd =>
                .mk nd.metadata nd.instruction (nd.inner_instructions ++ [.mk cm ci []]))
                f0.length (f0 ++ [.mk xm xi xinner]) from rfl]
          rw [listModify_concat_self]
          rw [rspine_one _ (by simp)]
          simp
  | more d _ ih =>
    intro f p h
    simp only [rspine] at h
    cases hl : f.getLast? with
    | none => rw [hl] at h; simp at h
    | some x =>
      rw [hl] at h
      simp only [Option.map_eq_some'] at h
      obtain ⟨p', hp', hp⟩ := h
      obtain ⟨f0, hx⟩ : ∃ f0, f = f0 ++ [x] := List.getLast?_eq_some_iff.mp hl
      subst hx
      have hlen : (f0 ++ [x]).length - 1 = f0.length := by simp
      rw [hlen] at hp
      cases x with
      | mk xm xi xinner =>
        obtain ⟨nd, ha, hb, hc, hd, he⟩ := ih xinner p' hp'
        obtain ⟨q, qs, hqqs⟩ : ∃ q qs, p' = q :: qs := by
          have := rspine_length (d + 1) _ _ hp'
          cases p' with
          | nil => simp at this
          | cons q qs => exact ⟨q, qs, rfl⟩
        have hpush : pushChildAt (.mk cm ci []) (f0.length :: p') (f0 ++ [.mk xm xi xinner]) =
            f0 ++ [.mk xm xi (pushChildAt (.mk cm ci []) p' xinner)] := by
          subst hqqs
          rw [show pushChildAt (.mk cm ci []) (f0.length :: q :: qs) (f0 ++ [.mk xm xi xinner]) =
              listModify (fun nd =>
                .mk nd.metadata nd.instruction
                  (pushChildAt (.mk cm ci []) (q :: qs) nd.inner_instructions))
                f0.length (f0 ++ [.mk xm xi xinner]) from rfl]
          rw [listModify_concat_self]
          simp [NestedInstruction.metadata, NestedInstruction.instruction,
            NestedInstruction.inner_instructions]
        refine ⟨nd, ?_, ?_, ?_, ?_, ?_⟩
        · subst hp
          subst hqqs
          simp only [getAt, List.get?_concat_length, Option.bind_eq_bind, Option.some_bind]
          simpa [NestedInstruction.inner_instructions] using ha
        · subst hp
          rw [hpush]
          rw [flattenForest_append, flattenForest_append]
          simp [flattenForest, hb]
        · subst hp
          rw [hpush]
          show rspine (d + 1 + 2) _ = _
          rw [rspine_succ_succ (d + 1) _ _ (List.getLast?_concat _)]
          simp only [NestedInstruction.inner_instructions]
          rw [hc]
          cases nd
          simp [NestedInstruction.inner_instructions]
        · intro d' h1 h2
          subst hp
          match d', h1 with
          | 1, _ =>
            rw [rspine_one _ (by simp), hlen]
            simp
          | d'' + 2, _ =>
            rw [rspine_succ_succ d'' _ _ (List.getLast?_concat _)]
            simp only [NestedInstruction.inner_instructions]
            rw [hd (d'' + 1) (by omega) (by omega)]
            simp [List.take_succ_cons, hlen]
        · intro d' hd'
          subst hp
          rw [hpush]
          match d', hd' with
          | 0, _ => simp [rspine]
          | 1, _ =>
            rw [rspine_one _ (by simp), rspine_one _ (by simp)]
            simp
          | d'' + 2, _ =>
            rw [rspine_succ_succ d'' _ _ (List.getLast?_concat _),
              rspine_succ_succ d'' _ _ (List.getLast?_concat _)]
            simp only [NestedInstruction.inner_instructions]
            rw [he (d'' + 1) (by omega)]
            simp

theorem builderInv_init : builderInv [] (fun _ => none) 0 :=
  ⟨by norm_num [MAX_INSTRUCTION_STACK_DEPTH], fun k hk => absurd hk (by omega),
   fun _ _ => rfl⟩

/-- A step on an entry whose height is within range and at most one more than
the invariant level `m` places the node: the build state stays valid at level
`stack_height` and the flattening grows by exactly this entry. -/
theorem buildStep_place (f : NestedInstructions) (ptrs : Nat → Option (List Nat)) (m : Nat)
    (e : InstructionMetadata × Instruction) (hInv : builderInv f ptrs m)
    (h1 : 1 ≤ e.1.stack_height) (h2 : e.1.stack_height ≤ MAX_INSTRUCTION_STACK_DEPTH)
    (h3 : e.1.stack_height ≤ m + 1) :
    ∃ f' ptrs', buildStep ⟨f, ptrs⟩ e = some ⟨f', ptrs'⟩ ∧
      builderInv f' ptrs' e.1.stack_height ∧
      flattenForest f' = flattenForest f ++ [e] := by
  obtain ⟨hm, hlive, hdead⟩ := hInv
  by_cases h1' : e.1.stack_height = 1
  · refine ⟨f ++ [.mk e.1 e.2 []],
      fun k => if k = 0 then some [(f ++ [NestedInstruction.mk e.1 e.2 []]).length - 1]
               else if e.1.stack_height ≤ k then none else ptrs k, ?_, ?_, ?_⟩
    · simp only [buildStep]
      rw [if_neg (by omega), if_neg (by omega), if_pos h1']
    · refine ⟨by omega, ?_, ?_⟩
      · intro k hk
        have hk0 : k = 0 := by omega
        subst hk0
        have hr := rspine_one (f ++ [NestedInstruction.mk e.1 e.2 []]) (by simp)
        simp [hr]
      · intro k hk
        have hne : ¬ k = 0 := by omega
        simp [hne, hk]
    · rw [flattenForest_append]
      simp [flattenForest]
  · have h2' : 2 ≤ e.1.stack_height := by omega
    have hk2 : e.1.stack_height - 2 < m := by omega
    obtain ⟨hptr, hsome⟩ := hlive (e.1.stack_height - 2) hk2
    obtain ⟨p, hp⟩ := Option.isSome_iff_exists.mp hsome
    obtain ⟨nd, ha, hb, hc, hdp, hep⟩ := rspine_spec e.1 e.2 (e.1.stack_height - 2 + 1) f p hp
    refine ⟨pushChildAt (.mk e.1 e.2 []) p f,
      fun k => if k = e.1.stack_height - 1 then some (p ++ [nd.inner_instructions.length])
               else if e.1.stack_height ≤ k then none else ptrs k, ?_, ?_, ?_⟩
    · simp only [buildStep]
      rw [if_neg (by omega), if_neg (by omega), if_neg h1', if_neg (by omega), hptr, hp]
      simp only [ha]
    · refine ⟨h2, ?_, ?_⟩
      · intro k hk
        by_cases hk1 : k = e.1.stack_height - 1
        · subst hk1
          have hkk : e.1.stack_height - 1 + 1 = e.1.stack_height - 2 + 1 + 1 := by omega
          simp [hkk, hc]
        · have hklt : k < e.1.stack_height - 1 := by omega
          have h5 := hep (k + 1) (by omega)
          have h6 := hlive k (by omega)
          have hne : ¬ e.1.stack_height ≤ k := by omega
          simp [hk1, hne, h5, h6.1, h6.2]
      · intro k hk
        have hne : ¬ k = e.1.stack_height - 1 := by omega
        have hle : e.1.stack_height ≤ k := hk
        simp [hne, hle]
    · rw [hb]

/-- A step on any entry whose height is within range succeeds (possibly
silently dropping the entry when no parent reference is live), and preserves
the invariant. -/
theorem buildStep_ok (f : NestedInstructions) (ptrs : Nat → Option (List Nat)) (m : Nat)
    (e : InstructionMetadata × Instruction) (hInv : builderInv f ptrs m)
    (h1 : 1 ≤ e.1.stack_height) (h2 : e.1.stack_height ≤ MAX_INSTRUCTION_STACK_DEPTH) :
    ∃ f' ptrs' m', buildStep ⟨f, ptrs⟩ e = some ⟨f', ptrs'⟩ ∧ builderInv f' ptrs' m' ∧
      (flattenForest f' = flattenForest f ∨ flattenForest f' = flattenForest f ++ [e]) := by
  by_cases h3 : e.1.stack_height ≤ m + 1
  · obtain ⟨f', ptrs', hs, hi, hf⟩ := buildStep_place f ptrs m e hInv h1 h2 h3
    exact ⟨f', ptrs', e.1.stack_height, hs, hi, Or.inr hf⟩
  · obtain ⟨hm, hlive, hdead⟩ := hInv
    refine ⟨f, fun k => if e.1.stack_height ≤ k then none else ptrs k, m, ?_, ?_, Or.inl rfl⟩
    · simp only [buildStep]
      rw [if_neg (by omega), if_neg (by omega), if_neg (by omega), if_neg (by omega),
        hdead (e.1.stack_height - 2) (by omega)]
    · refine ⟨hm, ?_, ?_⟩
      · intro k hk
        have hne : ¬ e.1.stack_height ≤ k := by omega
        have h6 := hlive k hk
        simp [hne, h6.1, h6.2]
      · intro k hk
        by_cases hhk : e.1.stack_height ≤ k
        · simp [hhk]
        · simp [hhk, hdead k hk]

theorem buildLoop_wf (l : InstructionsWithMetadata) :
    ∀ f ptrs m, builderInv f ptrs m →
    (∀ e ∈ l, 1 ≤ e.1.stack_height ∧ e.1.stack_height ≤ MAX_INSTRUCTION_STACK_DEPTH) →
    (∀ e, l.head? = some e → e.1.stack_height ≤ m + 1) →
    l.Chain' (fun a b => b.1.stack_height ≤ a.1.stack_height + 1) →
    ∃ F, buildLoop ⟨f, ptrs⟩ l = some F ∧ flattenForest F = flattenForest f ++ l := by
  induction l with
  | nil =>
    intro f ptrs m _ _ _ _
    exact ⟨f, rfl, by simp⟩
  | cons e rest ih =>
    intro f ptrs m hInv hh hhead hchain
    obtain ⟨he1, he2⟩ := hh e (by simp)
    obtain ⟨f', ptrs', hs, hi, hf⟩ := buildStep_place f ptrs m e hInv he1 he2 (hhead e rfl)
    have hchain' := List.chain'_cons'.mp hchain
    obtain ⟨F, hF, hflat⟩ := ih f' ptrs' e.1.stack_height hi
      (fun x hx => hh x (by simp [hx]))
      (fun x hx => hchain'.1 x (Option.mem_def.mpr hx)) hchain'.2
    refine ⟨F, ?_, ?_⟩
    · simp only [buildLoop, hs]
      exact hF
    · rw [hflat, hf]
      simp

theorem buildLoop_sublist (l : InstructionsWithMetadata) :
    ∀ f ptrs m, builderInv f ptrs m →
    (∀ e ∈ l, 1 ≤ e.1.stack_height ∧ e.1.stack_height ≤ MAX_INSTRUCTION_STACK_DEPTH) →
    ∃ F, buildLoop ⟨f, ptrs⟩ l = some F ∧
      ∃ s, flattenForest F = flattenForest f ++ s ∧ s.Sublist l := by
  induction l with
  | nil =>
    intro f ptrs m _ _
    exact ⟨f, rfl, [], by simp, List.Sublist.refl []⟩
  | cons e rest ih =>
    intro f ptrs m hInv hh
    obtain ⟨f', ptrs', m', hs, hi, hor⟩ :=
      buildStep_ok f ptrs m e hInv (hh e (by simp)).1 (hh e (by simp)).2
    obtain ⟨F, hF, s, hfl, hsub⟩ := ih f' ptrs' m' hi (fun x hx => hh x (by simp [hx]))
    cases hor with
    | inl h =>
      exact ⟨F, by simp only [buildLoop, hs]; exact hF, s, by rw [hfl, h], hsub.cons e⟩
    | inr h =>
      refine ⟨F, by simp only [buildLoop, hs]; exact hF, e :: s, ?_, hsub.cons₂ e⟩
      rw [hfl, h]
      simp

theorem buildStep_isSome (st : NestedBuilder) (e : InstructionMetadata × Instruction) :
    (buildStep st e).isSome ↔
      1 ≤ e.1.stack_height ∧ e.1.stack_height ≤ MAX_INSTRUCTION_STACK_DEPTH := by
  constructor
  · intro h
    by_contra hc
    simp only [buildStep] at h
    by_cases h0 : e.1.stack_height = 0
    · rw [if_pos h0] at h
      simp at h
    · by_cases hM : MAX_INSTRUCTION_STACK_DEPTH < e.1.stack_height
      · rw [if_neg h0, if_pos hM] at h
        simp at h
      · exact hc ⟨by omega, by omega⟩
  · intro ⟨ha, hb⟩
    simp only [buildStep]
    rw [if_neg (by omega), if_neg (by omega)]
    by_cases h1 : e.1.stack_height = 1
    · rw [if_pos h1]
      simp
    · rw [if_neg h1]
      cases hm : (if e.1.stack_height ≤ e.1.stack_height - 2 then none
                  else st.level_ptrs (e.1.stack_height - 2)) with
      | none => simp
      | some p => cases hg : getAt p st.nested_ixs <;> simp [hg]

theorem buildLoop_isSome (l : InstructionsWithMetadata) :
    ∀ st, (buildLoop st l).isSome ↔
      ∀ e ∈ l, 1 ≤ e.1.stack_height ∧ e.1.stack_height ≤ MAX_INSTRUCTION_STACK_DEPTH := by
  induction l with
  | nil => intro st; simp [buildLoop]
  | cons e rest ih =>
    intro st
    simp only [buildLoop]
    cases hs : buildStep st e with
    | none =>
      have hbad := buildStep_isSome st e
      rw [hs] at hbad
      simp only [Option.isSome_none, Bool.false_eq_true, false_iff] at hbad
      simp only [Option.isSome_none, Bool.false_eq_true, false_iff]
      intro hall
      exact hbad (hall e (by simp))
    | some st' =>
      have hgood : 1 ≤ e.1.stack_height ∧ e.1.stack_height ≤ MAX_INSTRUCTION_STACK_DEPTH := by
        have := (buildStep_isSome st e).mp (by simp [hs])
        exact this
      simp [ih st', hgood]

/-! ## Claims C1, C2, C8: the hierarchy builder -/

/-- C1: for every well-formed flat input list (entries in protocol pre-order
with stack heights in `[1, MAX_INSTRUCTION_STACK_DEPTH]`), the build succeeds
and the pre-order flattening of the returned forest reproduces the input
list exactly, field-for-field. -/
theorem builder_roundtrip (l : InstructionsWithMetadata) (hwf : WellFormedInput l) :
    ∃ F, nestedInstructionsFrom l = some F ∧ flattenForest F = l := by
  obtain ⟨hh, hhead, hchain⟩ := hwf
  obtain ⟨F, hF, hflat⟩ := buildLoop_wf l [] (fun _ => none) 0 builderInv_init hh
    (fun e he => by
      have := hhead e he
      omega) hchain
  refine ⟨F, hF, ?_⟩
  rw [hflat]
  simp [flattenForest]

/-- Witness for C1 at the spec's §8 scenario: heights 1, 2, 2, 1. -/
theorem builder_roundtrip_witness :
    WellFormedInput wfSampleInput ∧
      ∃ F, nestedInstructionsFrom wfSampleInput = some F ∧
        flattenForest F = wfSampleInput := by
  have hwf : WellFormedInput wfSampleInput := by
    refine ⟨?_, ?_, ?_⟩
    · intro e he
      simp only [wfSampleInput, mdSample, List.mem_cons, List.not_mem_nil, or_false] at he
      rcases he with h | h | h | h <;> subst h <;>
        simp [MAX_INSTRUCTION_STACK_DEPTH]
    · intro e he
      simp only [wfSampleInput, List.head?_cons, Option.some.injEq] at he
      rw [← he]
      simp [mdSample]
    · simp [wfSampleInput, List.chain'_cons, mdSample]
  exact ⟨hwf, builder_roundtrip wfSampleInput hwf⟩

/-- Counterexample to C2 as stated: a single entry at stack height 2 with no
parent reference does not fail the build — the build succeeds with an empty
forest, silently omitting the entry. -/
theorem builder_silent_drop_cex :
    ¬ (nestedInstructionsFrom orphanInput = none ∨
       ∀ e ∈ orphanInput, ∃ F, nestedInstructionsFrom orphanInput = some F ∧
         e ∈ flattenForest F) := by
  intro h
  have hval : nestedInstructionsFrom orphanInput = some [] := rfl
  rcases h with h | h
  · rw [hval] at h
    exact Option.noConfusion h
  · obtain ⟨F, hF, hmem⟩ := h (mdSample 2 [0, 0], insSample 0) (by simp [orphanInput])
    rw [hval] at hF
    have : F = [] := by
      injection hF with h'
      exact h'.symm
    subst this
    simp [flattenForest] at hmem

/-- C2 amended: for input whose stack heights all lie in
`[1, MAX_INSTRUCTION_STACK_DEPTH]`, the build always succeeds and never
misplaces a node — the returned forest flattens to a subsequence of the
input, in input order — but an entry with no live parent reference is
silently dropped from that subsequence rather than failing the build
(heights outside the range still fail the whole build, as in C8). -/
theorem builder_no_silent_failure_amended (l : InstructionsWithMetadata)
    (hh : ∀ e ∈ l, 1 ≤ e.1.stack_height ∧ e.1.stack_height ≤ MAX_INSTRUCTION_STACK_DEPTH) :
    ∃ F, nestedInstructionsFrom l = some F ∧ (flattenForest F).Sublist l := by
  obtain ⟨F, hF, s, hfl, hsub⟩ :=
    buildLoop_sublist l [] (fun _ => none) 0 builderInv_init hh
  refine ⟨F, hF, ?_⟩
  rw [hfl]
  simpa [flattenForest] using hsub

/-- Witness for the amended C2 at the orphan input: the build succeeds and
returns the empty forest, whose flattening is a (strict) subsequence. -/
theorem builder_no_silent_failure_amended_witness :
    (∀ e ∈ orphanInput,
      1 ≤ e.1.stack_height ∧ e.1.stack_height ≤ MAX_INSTRUCTION_STACK_DEPTH) ∧
    ∃ F, nestedInstructionsFrom orphanInput = some F ∧ (flattenForest F).Sublist orphanInput := by
  have hh : ∀ e ∈ orphanInput,
      1 ≤ e.1.stack_height ∧ e.1.stack_height ≤ MAX_INSTRUCTION_STACK_DEPTH := by
    intro e he
    simp only [orphanInput, List.mem_cons, List.not_mem_nil, or_false] at he
    subst he
    simp [mdSample, MAX_INSTRUCTION_STACK_DEPTH]
  exact ⟨hh, builder_no_silent_failure_amended orphanInput hh⟩

/-- C8: the builder's height validation fails the whole build (no forest is
returned) exactly when some entry's stack height is 0 or exceeds
`MAX_INSTRUCTION_STACK_DEPTH`; for heights within `[1, MAX]` it never
fires. -/
theorem builder_height_validation (l : InstructionsWithMetadata) :
    (nestedInstructionsFrom l).isSome ↔
      ∀ e ∈ l, 1 ≤ e.1.stack_height ∧ e.1.stack_height ≤ MAX_INSTRUCTION_STACK_DEPTH :=
  buildLoop_isSome l _

/-! ## Extractor lemmas -/

theorem innerPathStack_length (ps : List Nat) (prev : Nat) (ii : InnerInstruction) :
    (innerPathStack ps prev ii).length = ps.length := by
  simp only [innerPathStack]
  split <;> simp

theorem processInnerLoop_cons (ak : List Pubkey) (tm : TransactionMetadata)
    (iw isg : Pubkey → Nat → Bool) (gi : Nat) (ps : List Nat) (prev : Nat)
    (ii : InnerInstruction) (rest : List InnerInstruction)
    (hcond : ¬ (ii.stack_height.getD 1 = 0 ∨
      MAX_INSTRUCTION_STACK_DEPTH < ii.stack_height.getD 1)) :
    processInnerLoop ak tm iw isg gi ps prev (ii :: rest) =
      (processInnerLoop ak tm iw isg gi (innerPathStack ps prev ii)
          (ii.stack_height.getD 1) rest).map
        fun tail =>
          ({ transaction_metadata := tm
             stack_height := ii.stack_height.getD 1
             index := gi
             absolute_path := (innerPathStack ps prev ii).take (ii.stack_height.getD 1) },
           build_instruction ak ii.instruction iw isg) :: tail := by
  simp only [processInnerLoop]
  rw [if_neg hcond]
  cases h : processInnerLoop ak tm iw isg gi (innerPathStack ps prev ii)
      (ii.stack_height.getD 1) rest <;> simp [h]

/-- Totality and per-row facts of the inner loop under in-range hints: every
produced row has a path as long as its stack height, an in-range stack
height, and an instruction built by `build_instruction` over the same key
table and predicates. -/
theorem processInnerLoop_props (ak : List Pubkey) (tm : TransactionMetadata)
    (iw isg : Pubkey → Nat → Bool) (gi : Nat) (insts : List InnerInstruction) :
    ∀ ps prev, ps.length = MAX_INSTRUCTION_STACK_DEPTH →
    (∀ ii ∈ insts, 1 ≤ ii.stack_height.getD 1 ∧
      ii.stack_height.getD 1 ≤ MAX_INSTRUCTION_STACK_DEPTH) →
    ∃ es, processInnerLoop ak tm iw isg gi ps prev insts = some es ∧
      ∀ e ∈ es, e.1.absolute_path.length = e.1.stack_height ∧
        1 ≤ e.1.stack_height ∧ e.1.stack_height ≤ MAX_INSTRUCTION_STACK_DEPTH ∧
        ∃ ci, e.2 = build_instruction ak ci iw isg := by
  induction insts with
  | nil =>
    intro ps prev _ _
    exact ⟨[], rfl, by simp⟩
  | cons ii rest ih =>
    intro ps prev hlen hh
    obtain ⟨h1, h2⟩ := hh ii (by simp)
    obtain ⟨es, hes, hprops⟩ := ih (innerPathStack ps prev ii) (ii.stack_height.getD 1)
      (by rw [innerPathStack_length]; exact hlen) (fun x hx => hh x (by simp [hx]))
    refine ⟨({ transaction_metadata := tm
               stack_height := ii.stack_height.getD 1
               index := gi
               absolute_path := (innerPathStack ps prev ii).take (ii.stack_height.getD 1) },
             build_instruction ak ii.instruction iw isg) :: es, ?_, ?_⟩
    · rw [processInnerLoop_cons ak tm iw isg gi ps prev ii rest (by omega), hes]
      rfl
    · intro e he
      rcases List.mem_cons.mp he with h | h
      · subst h
        refine ⟨?_, h1, h2, ii.instruction, rfl⟩
        simp only [List.length_take, innerPathStack_length, hlen]
        omega
      · exact hprops e h

theorem processGroups_props (ak : List Pubkey) (tm : TransactionMetadata)
    (iw isg : Pubkey → Nat → Bool) (i : Nat) (gs : List InnerInstructions) :
    (∀ g ∈ gs, ∀ ii ∈ g.instructions, 1 ≤ ii.stack_height.getD 1 ∧
      ii.stack_height.getD 1 ≤ MAX_INSTRUCTION_STACK_DEPTH) →
    ∃ rows, processGroups ak tm iw isg i gs = some rows ∧
      ∀ e ∈ rows, e.1.absolute_path.length = e.1.stack_height ∧
        1 ≤ e.1.stack_height ∧ e.1.stack_height ≤ MAX_INSTRUCTION_STACK_DEPTH ∧
        ∃ ci, e.2 = build_instruction ak ci iw isg := by
  induction gs with
  | nil =>
    intro _
    exact ⟨[], rfl, by simp⟩
  | cons g rest ih =>
    intro hh
    obtain ⟨rows, hrows, hprops⟩ := ih fun x hx => hh x (by simp [hx])
    by_cases hgi : g.index = i
    · obtain ⟨es, hes, hesp⟩ := processInnerLoop_props ak tm iw isg g.index g.instructions
        ((List.replicate MAX_INSTRUCTION_STACK_DEPTH 0).set 0 g.index) 0
        (by simp) (hh g (by simp))
      refine ⟨es ++ rows, ?_, ?_⟩
      · simp only [processGroups]
        rw [if_pos hgi, hes, hrows]
        rfl
      · intro e he
        rcases List.mem_append.mp he with h | h
        exacts [hesp e h, hprops e h]
    · refine ⟨rows, ?_, hprops⟩
      simp only [processGroups]
      rw [if_neg hgi]
      exact hrows

theorem hintsInRange_groups (inner : Option (List InnerInstructions))
    (hh : HintsInRange inner) :
    ∀ g ∈ inner.getD [], ∀ ii ∈ g.instructions, 1 ≤ ii.stack_height.getD 1 ∧
      ii.stack_height.getD 1 ≤ MAX_INSTRUCTION_STACK_DEPTH := by
  cases inner with
  | none => simp
  | some gs => exact hh gs rfl

theorem processInstructionsLoop_props (ak : List Pubkey)
    (inner : Option (List InnerInstructions)) (tm : TransactionMetadata)
    (iw isg : Pubkey → Nat → Bool) (instrs : List CompiledInstruction)
    (hh : HintsInRange inner) :
    ∀ i, ∃ L, processInstructionsLoop ak inner tm iw isg i instrs = some L ∧
      ∀ e ∈ L, e.1.absolute_path.length = e.1.stack_height ∧
        1 ≤ e.1.stack_height ∧ e.1.stack_height ≤ MAX_INSTRUCTION_STACK_DEPTH ∧
        ∃ ci, e.2 = build_instruction ak ci iw isg := by
  induction instrs with
  | nil =>
    intro i
    exact ⟨[], rfl, by simp⟩
  | cons ci rest ih =>
    intro i
    obtain ⟨L, hL, hLp⟩ := ih (i + 1)
    obtain ⟨rows, hrows, hrp⟩ :=
      processGroups_props ak tm iw isg i (inner.getD []) (hintsInRange_groups inner hh)
    refine ⟨({ transaction_metadata := tm
               stack_height := 1
               index := i % 2 ^ 32
               absolute_path := [i % 256] },
             build_instruction ak ci iw isg) :: rows ++ L, ?_, ?_⟩
    · simp only [processInstructionsLoop]
      rw [hrows, hL]
    · intro e he
      rcases List.mem_cons.mp he with h | h
      · subst h
        refine ⟨by simp, by simp, by norm_num [MAX_INSTRUCTION_STACK_DEPTH], ci, rfl⟩
      · rcases List.mem_append.mp h with h' | h'
        exacts [hrp e h', hLp e h']

/-! ## Claim C7: the depth invariant of the extractor -/

/-- C7: whenever every inner-instruction stack-height hint (default 1) lies
in `[1, MAX_INSTRUCTION_STACK_DEPTH]`, extraction succeeds and every
produced row satisfies `absolute_path.length = stack_height` and
`1 ≤ stack_height ≤ MAX_INSTRUCTION_STACK_DEPTH`. -/
theorem extractor_depth_invariant (ak : List Pubkey)
    (instrs : List CompiledInstruction) (inner : Option (List InnerInstructions))
    (tm : TransactionMetadata) (iw isg : Pubkey → Nat → Bool)
    (hh : HintsInRange inner) :
    ∃ L, process_instructions ak instrs inner tm iw isg = some L ∧
      ∀ e ∈ L, e.1.absolute_path.length = e.1.stack_height ∧
        1 ≤ e.1.stack_height ∧ e.1.stack_height ≤ MAX_INSTRUCTION_STACK_DEPTH := by
  obtain ⟨L, hL, hLp⟩ := processInstructionsLoop_props ak inner tm iw isg instrs hh 0
  exact ⟨L, hL, fun e he => ⟨(hLp e he).1, (hLp e he).2.1, (hLp e he).2.2.1⟩⟩

/-- Witness for C7 at a concrete transaction: two top-level instructions and
one inner group of two depth-2 instructions. -/
theorem extractor_depth_invariant_witness :
    HintsInRange (some [sampleGroup]) ∧
    ∃ L, process_instructions [7] [ciSample 0, ciSample 1] (some [sampleGroup]) tmSample
        (fun _ _ => false) (fun _ _ => false) = some L ∧
      ∀ e ∈ L, e.1.absolute_path.length = e.1.stack_height ∧
        1 ≤ e.1.stack_height ∧ e.1.stack_height ≤ MAX_INSTRUCTION_STACK_DEPTH := by
  have hh : HintsInRange (some [sampleGroup]) := by
    intro gs hgs g hg ii hii
    cases hgs
    simp only [List.mem_cons, List.not_mem_nil, or_false] at hg
    subst hg
    simp only [sampleGroup, List.mem_cons, List.not_mem_nil, or_false] at hii
    rcases hii with h | h <;> subst h <;> simp [MAX_INSTRUCTION_STACK_DEPTH]
  exact ⟨hh, extractor_depth_invariant [7] [ciSample 0, ciSample 1] (some [sampleGroup])
    tmSample (fun _ _ => false) (fun _ _ => false) hh⟩

/-! ## Claim C9: lossy-but-total index resolution -/

/-- C9: an out-of-range program-id index degrades to the default (zero) key;
the accounts list consists of exactly the in-range indices' resolutions, in
order, out-of-range indices being omitted; and no index value can make
extraction fail — under in-range stack hints the extractor returns a list
for every key table and every instruction content. -/
theorem extractor_lossy_resolution (ak : List Pubkey) (ins : CompiledInstruction)
    (iw isg : Pubkey → Nat → Bool)
    (instrs : List CompiledInstruction) (inner : Option (List InnerInstructions))
    (tm : TransactionMetadata)
    (hoob : ak.length ≤ ins.program_id_index) (hh : HintsInRange inner) :
    (build_instruction ak ins iw isg).program_id = 0 ∧
    (build_instruction ak ins iw isg).accounts =
      (ins.accounts.filter fun idx => decide (idx < ak.length)).map
        (fun idx => { pubkey := (ak[idx]?).getD 0
                      is_writable := iw ((ak[idx]?).getD 0) idx
                      is_signer := isg ((ak[idx]?).getD 0) idx }) ∧
    (process_instructions ak instrs inner tm iw isg).isSome := by
  refine ⟨?_, ?_, ?_⟩
  · have hnone : ak[ins.program_id_index]? = none := List.getElem?_eq_none hoob
    simp only [build_instruction]
    rw [hnone]
    rfl
  · simp only [build_instruction]
    induction ins.accounts with
    | nil => simp
    | cons a rest ihacc =>
      cases hk : ak[a]? with
      | none =>
        have ha : ¬ a < ak.length := by
          have := List.getElem?_eq_none_iff.mp hk
          omega
        simp [List.filterMap_cons, List.filter_cons, hk, ha, ihacc]
      | some key =>
        have ha : a < ak.length := by
          by_contra hcon
          rw [List.getElem?_eq_none (by omega)] at hk
          exact Option.noConfusion hk
        simp [List.filterMap_cons, List.filter_cons, hk, ha, ihacc]
  · obtain ⟨L, hL, _⟩ := processInstructionsLoop_props ak inner tm iw isg instrs hh 0
    simp [process_instructions, hL]

/-- Witness for C9: key table `[5]`, program-id index 7 (out of range),
account indices 0 (in range) and 3 (out of range, silently dropped); the
extractor still returns a list. -/
theorem extractor_lossy_resolution_witness :
    ([5] : List Pubkey).length ≤ 7 ∧ HintsInRange (some [sampleGroup]) ∧
    ((build_instruction [5] { program_id_index := 7, accounts := [0, 3], data := [] }
        (fun _ _ => true) (fun _ _ => false)).program_id = 0 ∧
     (build_instruction [5] { program_id_index := 7, accounts := [0, 3], data := [] }
        (fun _ _ => true) (fun _ _ => false)).accounts =
      (([0, 3] : List Nat).filter fun idx => decide (idx < ([5] : List Pubkey).length)).map
        (fun idx => { pubkey := (([5] : List Pubkey)[idx]?).getD 0
                      is_writable := true
                      is_signer := false }) ∧
     (process_instructions [5] [ciSample 0] (some [sampleGroup]) tmSample
        (fun _ _ => true) (fun _ _ => false)).isSome) := by
  have hh : HintsInRange (some [sampleGroup]) := by
    intro gs hgs g hg ii hii
    cases hgs
    simp only [List.mem_cons, List.not_mem_nil, or_false] at hg
    subst hg
    simp only [sampleGroup, List.mem_cons, List.not_mem_nil, or_false] at hii
    rcases hii with h | h <;> subst h <;> simp [MAX_INSTRUCTION_STACK_DEPTH]
  refine ⟨by norm_num, hh, ?_⟩
  exact extractor_lossy_resolution [5] { program_id_index := 7, accounts := [0, 3], data := [] }
    (fun _ _ => true) (fun _ _ => false) [ciSample 0] (some [sampleGroup]) tmSample
    (by norm_num) hh

/-! ## Claim C10: V0 writability is key-membership in the loaded writable set -/

/-- Every account meta produced by `build_instruction` carries flags computed
by the supplied predicates on its own resolved key. -/
theorem build_instruction_accounts_mem (ak : List Pubkey) (ci : CompiledInstruction)
    (iw isg : Pubkey → Nat → Bool) :
    ∀ am ∈ (build_instruction ak ci iw isg).accounts, ∃ key idx,
      am = { pubkey := key, is_writable := iw key idx, is_signer := isg key idx } := by
  intro am ham
  simp only [build_instruction, List.mem_filterMap] at ham
  obtain ⟨idx, _, hidx⟩ := ham
  cases hk : ak[idx]? with
  | none => rw [hk] at hidx; exact Option.noConfusion hidx
  | some key =>
    rw [hk] at hidx
    simp only [Option.map_some', Option.some.injEq] at hidx
    exact ⟨key, idx, hidx.symm⟩

/-- Every row of a successful inner-loop run carries an instruction built by
`build_instruction` over the same key table and predicates. -/
theorem processInnerLoop_origin (ak : List Pubkey) (tm : TransactionMetadata)
    (iw isg : Pubkey → Nat → Bool) (gi : Nat) (insts : List InnerInstruction) :
    ∀ ps prev es, processInnerLoop ak tm iw isg gi ps prev insts = some es →
      ∀ e ∈ es, ∃ ci, e.2 = build_instruction ak ci iw isg := by
  induction insts with
  | nil =>
    intro ps prev es h
    injection h with h'
    subst h'
    simp
  | cons ii rest ih =>
    intro ps prev es h
    simp only [processInnerLoop] at h
    split at h
    · exact Option.noConfusion h
    · cases hrec : processInnerLoop ak tm iw isg gi (innerPathStack ps prev ii)
          (ii.stack_height.getD 1) rest with
      | none =>
        rw [hrec] at h
        exact Option.noConfusion h
      | some tail =>
        rw [hrec] at h
        injection h with h'
        subst h'
        intro e he
        rcases List.mem_cons.mp he with h | h
        · subst h
          exact ⟨ii.instruction, rfl⟩
        · exact ih _ _ tail hrec e h

theorem processGroups_origin (ak : List Pubkey) (tm : TransactionMetadata)
    (iw isg : Pubkey → Nat → Bool) (i : Nat) (gs : List InnerInstructions) :
    ∀ rows, processGroups ak tm iw isg i gs = some rows →
      ∀ e ∈ rows, ∃ ci, e.2 = build_instruction ak ci iw isg := by
  induction gs with
  | nil =>
    intro rows h
    injection h with h'
    subst h'
    simp
  | cons g rest ih =>
    intro rows h
    simp only [processGroups] at h
    split at h
    · cases hrec : processInnerLoop ak tm iw isg g.index
          ((List.replicate MAX_INSTRUCTION_STACK_DEPTH 0).set 0 g.index) 0
          g.instructions with
      | none =>
        rw [hrec] at h
        exact Option.noConfusion h
      | some es =>
        rw [hrec] at h
        cases hrest : processGroups ak tm iw isg i rest with
        | none =>
          rw [hrest] at h
          exact Option.noConfusion h
        | some r =>
          rw [hrest] at h
          injection h with h'
          subst h'
          intro e he
          rcases List.mem_append.mp he with hm | hm
          · exact processInnerLoop_origin ak tm iw isg g.index g.instructions _ _ es hrec e hm
          · exact ih r hrest e hm
    · exact ih rows h

theorem processInstructionsLoop_origin (ak : List Pubkey)
    (inner : Option (List InnerInstructions)) (tm : TransactionMetadata)
    (iw isg : Pubkey → Nat → Bool) (instrs : List CompiledInstruction) :
    ∀ i L, processInstructionsLoop ak inner tm iw isg i instrs = some L →
      ∀ e ∈ L, ∃ ci, e.2 = build_instruction ak ci iw isg := by
  induction instrs with
  | nil =>
    intro i L h
    injection h with h'
    subst h'
    simp
  | cons ci rest ih =>
    intro i L h
    simp only [processInstructionsLoop] at h
    cases hrows : processGroups ak tm iw isg i (inner.getD []) with
    | none =>
      rw [hrows] at h
      exact Option.noConfusion h
    | some rows =>
      rw [hrows] at h
      cases hrest : processInstructionsLoop ak inner tm iw isg (i + 1) rest with
      | none =>
        rw [hrest] at h
        exact Option.noConfusion h
      | some L' =>
        rw [hrest] at h
        injection h with h'
        subst h'
        intro e he
        rcases List.mem_cons.mp he with hm | hm
        · subst hm
          exact ⟨ci, rfl⟩
        · rcases List.mem_append.mp hm with hm' | hm'
          · exact processGroups_origin ak tm iw isg i (inner.getD []) rows hrows e hm'
          · exact ih (i + 1) L' hrest e hm'

/-- C10: for a V0-format message, an extracted account's is-writable flag is
true exactly when its key occurs among the transaction's loaded writable
addresses; the flag depends only on the key, so static message keys not also
present in that list are never marked writable. -/
theorem v0_writable_iff_loaded (liw lis : LegacyMessage → Nat → Bool)
    (tm : TransactionMetadata) (v0 : V0Message) (stm : TransactionStatusMeta)
    (L : InstructionsWithMetadata)
    (hL : extract_instructions_with_metadata liw lis tm (.v0 v0) stm = some L) :
    ∀ e ∈ L, ∀ am ∈ e.2.accounts,
      (am.is_writable = true ↔ am.pubkey ∈ stm.loaded_addresses.writable) := by
  intro e he am ham
  simp only [extract_instructions_with_metadata, process_instructions] at hL
  obtain ⟨ci, hci⟩ := processInstructionsLoop_origin
    (v0.account_keys ++ stm.loaded_addresses.writable ++ stm.loaded_addresses.readonly)
    stm.inner_instructions tm
    (fun key _ => stm.loaded_addresses.writable.contains key)
    (fun _ idx => decide (idx < v0.header.num_required_signatures))
    v0.instructions 0 L hL e he
  rw [hci] at ham
  obtain ⟨key, idx, ham'⟩ := build_instruction_accounts_mem _ ci _ _ am ham
  subst ham'
  simp [List.elem_iff]

/-- Witness for C10: the concrete V0 transaction `v0Sample` with loaded
writable key 30; in the extracted output, exactly the account with key 30 is
writable — the static keys, signer or not, are not. -/
theorem v0_writable_iff_loaded_witness :
    extract_instructions_with_metadata (fun _ _ => false) (fun _ _ => false) tmSample
        (.v0 v0Sample) v0SampleMeta = some v0SampleOut ∧
    v0SampleOut.Forall fun e => e.2.accounts.Forall fun am =>
      (am.is_writable = true ↔ am.pubkey ∈ v0SampleMeta.loaded_addresses.writable) := by
  refine ⟨rfl, ?_⟩
  rw [List.forall_iff_forall_mem]
  intro e he
  rw [List.forall_iff_forall_mem]
  intro am ham
  exact v0_writable_iff_loaded (fun _ _ => false) (fun _ _ => false) tmSample v0Sample
    v0SampleMeta v0SampleOut rfl e he am ham

/-! ## Claim C3: the order, heights and top-level paths of the flat output -/

theorem processInnerLoop_shape (ak : List Pubkey) (tm : TransactionMetadata)
    (iw isg : Pubkey → Nat → Bool) (gi : Nat) (insts : List InnerInstruction) :
    ∀ ps prev, (∀ ii ∈ insts, 1 ≤ ii.stack_height.getD 1 ∧
      ii.stack_height.getD 1 ≤ MAX_INSTRUCTION_STACK_DEPTH) →
    ∃ es, processInnerLoop ak tm iw isg gi ps prev insts = some es ∧
      List.Forall₂ rowMatches es (insts.map fun ii =>
        (ii.stack_height.getD 1, none, build_instruction ak ii.instruction iw isg)) := by
  induction insts with
  | nil =>
    intro ps prev _
    exact ⟨[], rfl, List.Forall₂.nil⟩
  | cons ii rest ih =>
    intro ps prev hh
    obtain ⟨h1, h2⟩ := hh ii (by simp)
    obtain ⟨es, hes, hsh⟩ := ih (innerPathStack ps prev ii) (ii.stack_height.getD 1)
      (fun x hx => hh x (by simp [hx]))
    refine ⟨({ transaction_metadata := tm
               stack_height := ii.stack_height.getD 1
               index := gi
               absolute_path := (innerPathStack ps prev ii).take (ii.stack_height.getD 1) },
             build_instruction ak ii.instruction iw isg) :: es, ?_, ?_⟩
    · rw [processInnerLoop_cons ak tm iw isg gi ps prev ii rest (by omega), hes]
      rfl
    · exact List.Forall₂.cons ⟨rfl, by simp, rfl⟩ hsh

theorem processGroups_shape (ak : List Pubkey) (tm : TransactionMetadata)
    (iw isg : Pubkey → Nat → Bool) (i : Nat) (gs : List InnerInstructions) :
    (∀ g ∈ gs, ∀ ii ∈ g.instructions, 1 ≤ ii.stack_height.getD 1 ∧
      ii.stack_height.getD 1 ≤ MAX_INSTRUCTION_STACK_DEPTH) →
    ∃ rows, processGroups ak tm iw isg i gs = some rows ∧
      List.Forall₂ rowMatches rows
        ((gs.filter fun g => decide (g.index = i)).flatMap fun g =>
          g.instructions.map fun ii =>
            (ii.stack_height.getD 1, none, build_instruction ak ii.instruction iw isg)) := by
  induction gs with
  | nil =>
    intro _
    exact ⟨[], rfl, List.Forall₂.nil⟩
  | cons g rest ih =>
    intro hh
    obtain ⟨rows, hrows, hsh⟩ := ih fun x hx => hh x (by simp [hx])
    by_cases hgi : g.index = i
    · obtain ⟨es, hes, hesh⟩ := processInnerLoop_shape ak tm iw isg g.index g.instructions
        ((List.replicate MAX_INSTRUCTION_STACK_DEPTH 0).set 0 g.index) 0 (hh g (by simp))
      refine ⟨es ++ rows, ?_, ?_⟩
      · simp only [processGroups]
        rw [if_pos hgi, hes, hrows]
        rfl
      · simp only [List.filter_cons, hgi, decide_True, List.flatMap_cons]
        exact List.rel_append hesh hsh
    · refine ⟨rows, ?_, ?_⟩
      · simp only [processGroups]
        rw [if_neg hgi]
        exact hrows
      · simp only [List.filter_cons, hgi, decide_False, List.flatMap_cons]
        simpa using hsh

theorem processInstructionsLoop_shape (ak : List Pubkey)
    (inner : Option (List InnerInstructions)) (tm : TransactionMetadata)
    (iw isg : Pubkey → Nat → Bool) (instrs : List CompiledInstruction)
    (hh : HintsInRange inner) :
    ∀ i, ∃ L, processInstructionsLoop ak inner tm iw isg i instrs = some L ∧
      List.Forall₂ rowMatches L (specFlatSkeleton ak iw isg inner i instrs) := by
  induction instrs with
  | nil =>
    intro i
    exact ⟨[], rfl, List.Forall₂.nil⟩
  | cons ci rest ih =>
    intro i
    obtain ⟨L, hL, hLsh⟩ := ih (i + 1)
    obtain ⟨rows, hrows, hrsh⟩ :=
      processGroups_shape ak tm iw isg i (inner.getD []) (hintsInRange_groups inner hh)
    refine ⟨({ transaction_metadata := tm
               stack_height := 1
               index := i % 2 ^ 32
               absolute_path := [i % 256] },
             build_instruction ak ci iw isg) :: rows ++ L, ?_, ?_⟩
    · simp only [processInstructionsLoop]
      rw [hrows, hL]
    · refine List.Forall₂.cons ⟨rfl, ?_, rfl⟩ (List.rel_append hrsh hLsh)
      intro p hp
      cases hp
      rfl

/-- C3 amended: when every inner stack-height hint (default 1) lies in
`[1, MAX_INSTRUCTION_STACK_DEPTH]`, the extractor succeeds and its output
lists, for every top-level instruction `i` in order, the top-level row
itself (stack height 1, absolute path `[i mod 256]` — the index is stored as
a `u8`), followed immediately by the rows of the inner groups naming `i`, in
the order supplied, each with stack height equal to its explicit hint or 1
when the hint is absent, and each row carrying the corresponding built
instruction. -/
theorem extractor_flat_order_amended (ak : List Pubkey)
    (instrs : List CompiledInstruction) (inner : Option (List InnerInstructions))
    (tm : TransactionMetadata) (iw isg : Pubkey → Nat → Bool)
    (hh : HintsInRange inner) :
    ∃ L, process_instructions ak instrs inner tm iw isg = some L ∧
      List.Forall₂ rowMatches L (specFlatSkeleton ak iw isg inner 0 instrs) :=
  processInstructionsLoop_shape ak inner tm iw isg instrs hh 0

/-- Counterexample to C3 as stated: with an inner stack-height hint of 0 the
extractor does not return any list at all (the Rust code panics indexing
`path_stack[0 - 1]`), so no output with the claimed listing exists. -/
theorem extractor_flat_order_cex :
    ¬ ∃ L, process_instructions [7] [ciSample 0] (some [hint0Group]) tmSample
        (fun _ _ => false) (fun _ _ => false) = some L ∧
      List.Forall₂ rowMatches L (specFlatSkeleton [7] (fun _ _ => false) (fun _ _ => false)
        (some [hint0Group]) 0 [ciSample 0]) := by
  intro h
  obtain ⟨L, hL, _⟩ := h
  rw [show process_instructions [7] [ciSample 0] (some [hint0Group]) tmSample
      (fun _ _ => false) (fun _ _ => false) = none from rfl] at hL
  exact Option.noConfusion hL

/-- Witness for the amended C3 at a concrete transaction. -/
theorem extractor_flat_order_amended_witness :
    HintsInRange (some [sampleGroup]) ∧
    ∃ L, process_instructions [7] [ciSample 0, ciSample 1] (some [sampleGroup]) tmSample
        (fun _ _ => false) (fun _ _ => false) = some L ∧
      List.Forall₂ rowMatches L (specFlatSkeleton [7] (fun _ _ => false) (fun _ _ => false)
        (some [sampleGroup]) 0 [ciSample 0, ciSample 1]) := by
  have hh : HintsInRange (some [sampleGroup]) := by
    intro gs hgs g hg ii hii
    cases hgs
    simp only [List.mem_cons, List.not_mem_nil, or_false] at hg
    subst hg
    simp only [sampleGroup, List.mem_cons, List.not_mem_nil, or_false] at hii
    rcases hii with h | h <;> subst h <;> simp [MAX_INSTRUCTION_STACK_DEPTH]
  exact ⟨hh, extractor_flat_order_amended [7] [ciSample 0, ciSample 1] (some [sampleGroup])
    tmSample (fun _ _ => false) (fun _ _ => false) hh⟩

/-! ## Claim C4: path monotonicity -/

/-- Counterexample to C4 as stated: one top-level instruction with one
hint-free inner instruction. The inner row defaults to stack height 1 and
its path counter is reset (the code compares against `prev_height = 0`, not
the actual previous row), so the consecutive rows have depths 1, 1 and both
have path `[0]` — the element at depth 1 does not increment. -/
theorem path_monotonicity_cex :
    ¬ (∀ L, process_instructions [7] [ciSample 0] (some [noHintGroup]) tmSample
          (fun _ _ => false) (fun _ _ => false) = some L → pathMonotonicityStated L) := by
  intro h
  have hmono := h noHintOut rfl
  have hpair := hmono 0
    ({ transaction_metadata := tmSample, stack_height := 1, index := 0, absolute_path := [0] },
     { program_id := 7, accounts := [], data := [0] })
    ({ transaction_metadata := tmSample, stack_height := 1, index := 0, absolute_path := [0] },
     { program_id := 7, accounts := [], data := [10] })
    rfl rfl
  have h3 := hpair.2 (Nat.le_refl 1)
    ({ transaction_metadata := tmSample, stack_height := 1, index := 0, absolute_path := [0] },
     { program_id := 7, accounts := [], data := [0] })
    rfl
  simp at h3

/-- The inner loop preserves the path-monotonicity chain: given a path stack
of full length whose slot 0 holds the group index and whose deeper counters
are bounded by `cnt`, strict hints produce rows chaining with `c4Rel` from
the previous row `e0` (whose path agrees with the stack below `prev`). -/
theorem innerLoop_chain (ak : List Pubkey) (tm : TransactionMetadata)
    (iw isg : Pubkey → Nat → Bool) (i : Nat) (insts : List InnerInstruction) :
    ∀ ps prev cnt (e0 : InstructionMetadata × Instruction),
    ps.length = MAX_INSTRUCTION_STACK_DEPTH →
    ps.get? 0 = some i →
    (∀ k x, 1 ≤ k → ps.get? k = some x → x ≤ cnt) →
    cnt + insts.length ≤ 255 →
    (∀ ii ∈ insts, ∃ hh, ii.stack_height = some hh ∧ 2 ≤ hh ∧
      hh ≤ MAX_INSTRUCTION_STACK_DEPTH) →
    (prev = e0.1.stack_height ∨ (prev = 0 ∧ e0.1.stack_height = 1)) →
    (∀ k, k < prev → e0.1.absolute_path.get? k = ps.get? k) →
    ∃ es, processInnerLoop ak tm iw isg i ps prev insts = some es ∧
      List.Chain' c4Rel (e0 :: es) ∧
      ∀ e ∈ es, e.1.absolute_path.get? 0 = some i ∧ 2 ≤ e.1.stack_height := by
  induction insts with
  | nil =>
    intro ps prev cnt e0 _ _ _ _ _ _ _
    exact ⟨[], rfl, List.chain'_singleton e0, by simp⟩
  | cons ii rest ih =>
    intro ps prev cnt e0 hlen hps0 hcnt hbound hhints hprev hagree
    obtain ⟨hh, hhsome, hh2, hhM⟩ := hhints ii (by simp)
    have hgd : ii.stack_height.getD 1 = hh := by rw [hhsome]; rfl
    have hcond : ¬ (ii.stack_height.getD 1 = 0 ∨
        MAX_INSTRUCTION_STACK_DEPTH < ii.stack_height.getD 1) := by omega
    have hrb : cnt + 1 + rest.length ≤ 255 := by
      have := hbound
      simp only [List.length_cons] at this
      omega
    by_cases hlt : prev < ii.stack_height.getD 1
    · -- strictly deeper: the counter at the new depth resets to 0
      have hips : innerPathStack ps prev ii = ps.set (hh - 1) 0 := by
        simp only [innerPathStack, hgd, if_pos (by omega : prev < hh)]
      have hips0 : (innerPathStack ps prev ii).get? 0 = some i := by
        rw [hips, List.get?_set]
        simp only [if_neg (by omega : ¬ hh - 1 = 0)]
        exact hps0
      have hipsk : ∀ k x, 1 ≤ k → (innerPathStack ps prev ii).get? k = some x →
          x ≤ cnt + 1 := by
        intro k x hk hx
        rw [hips, List.get?_set] at hx
        by_cases hke : hh - 1 = k
        · rw [if_pos hke] at hx
          cases hget : ps.get? k with
          | none => rw [hget] at hx; exact Option.noConfusion hx
          | some y =>
            rw [hget] at hx
            have hx' : 0 = x := by simpa using hx
            omega
        · rw [if_neg hke] at hx
          have := hcnt k x hk hx
          omega
      have hself : (innerPathStack ps prev ii).get? (hh - 1) = some 0 := by
        rw [hips, List.get?_set, if_pos rfl]
        cases hget : ps.get? (hh - 1) with
        | none =>
          have := List.get?_eq_none.mp hget
          omega
        | some y => simp
      obtain ⟨es, hes, hch, hmem⟩ := ih (innerPathStack ps prev ii)
        (ii.stack_height.getD 1) (cnt + 1)
        ({ transaction_metadata := tm
           stack_height := ii.stack_height.getD 1
           index := i
           absolute_path := (innerPathStack ps prev ii).take (ii.stack_height.getD 1) },
         build_instruction ak ii.instruction iw isg)
        (by rw [innerPathStack_length]; exact hlen) hips0 hipsk hrb
        (fun x hx => hhints x (by simp [hx])) (Or.inl rfl)
        (fun k hk => by rw [List.get?_take hk])
      refine ⟨({ transaction_metadata := tm
                 stack_height := ii.stack_height.getD 1
                 index := i
                 absolute_path := (innerPathStack ps prev ii).take (ii.stack_height.getD 1) },
               build_instruction ak ii.instruction iw isg) :: es, ?_, ?_, ?_⟩
      · rw [processInnerLoop_cons ak tm iw isg i ps prev ii rest hcond, hes]
        rfl
      · rw [List.chain'_cons]
        refine ⟨⟨fun _ => ?_, fun hle => ?_⟩, hch⟩
        · show ((innerPathStack ps prev ii).take (ii.stack_height.getD 1)).get?
              (ii.stack_height.getD 1 - 1) = some 0
          rw [List.get?_take (by omega), hgd]
          exact hself
        · exfalso
          have hle' : ii.stack_height.getD 1 ≤ e0.1.stack_height := hle
          rcases hprev with hp | ⟨hp0, hp1⟩
          · omega
          · omega
      · intro e he
        rcases List.mem_cons.mp he with he' | he'
        · subst he'
          refine ⟨?_, by simpa [hgd] using hh2⟩
          show ((innerPathStack ps prev ii).take (ii.stack_height.getD 1)).get? 0 = some i
          rw [List.get?_take (by omega)]
          exact hips0
        · exact hmem e he'
    · -- same or shallower: the counter at the new depth increments by one
      have hpe : prev = e0.1.stack_height := by
        rcases hprev with hp | ⟨hp0, _⟩
        · exact hp
        · omega
      obtain ⟨x0, hx0⟩ : ∃ x0, ps.get? (hh - 1) = some x0 := by
        cases hget : ps.get? (hh - 1) with
        | none =>
          have := List.get?_eq_none.mp hget
          omega
        | some y => exact ⟨y, rfl⟩
      have hx0le : x0 ≤ cnt := hcnt (hh - 1) x0 (by omega) hx0
      have hcnt254 : cnt ≤ 254 := by
        simp only [List.length_cons] at hbound
        omega
      have hips : innerPathStack ps prev ii = ps.set (hh - 1) (x0 + 1) := by
        simp only [innerPathStack, hgd, if_neg (by omega : ¬ prev < hh)]
        rw [List.getD_eq_get?, hx0]
        simp only [Option.getD_some]
        rw [Nat.mod_eq_of_lt (by omega)]
      have hips0 : (innerPathStack ps prev ii).get? 0 = some i := by
        rw [hips, List.get?_set]
        simp only [if_neg (by omega : ¬ hh - 1 = 0)]
        exact hps0
      have hipsk : ∀ k x, 1 ≤ k → (innerPathStack ps prev ii).get? k = some x →
          x ≤ cnt + 1 := by
        intro k x hk hx
        rw [hips, List.get?_set] at hx
        by_cases hke : hh - 1 = k
        · rw [if_pos hke] at hx
          cases hget : ps.get? k with
          | none => rw [hget] at hx; exact Option.noConfusion hx
          | some y =>
            rw [hget] at hx
            have hx' : x0 + 1 = x := by simpa using hx
            omega
        · rw [if_neg hke] at hx
          have := hcnt k x hk hx
          omega
      have hself : (innerPathStack ps prev ii).get? (hh - 1) = some (x0 + 1) := by
        rw [hips, List.get?_set, if_pos rfl]
        have : hh - 1 < ps.length := by omega
        rw [List.get?_eq_get this]
        simp
      obtain ⟨es, hes, hch, hmem⟩ := ih (innerPathStack ps prev ii)
        (ii.stack_height.getD 1) (cnt + 1)
        ({ transaction_metadata := tm
           stack_height := ii.stack_height.getD 1
           index := i
           absolute_path := (innerPathStack ps prev ii).take (ii.stack_height.getD 1) },
         build_instruction ak ii.instruction iw isg)
        (by rw [innerPathStack_length]; exact hlen) hips0 hipsk hrb
        (fun x hx => hhints x (by simp [hx])) (Or.inl rfl)
        (fun k hk => by rw [List.get?_take hk])
      refine ⟨({ transaction_metadata := tm
                 stack_height := ii.stack_height.getD 1
                 index := i
                 absolute_path := (innerPathStack ps prev ii).take (ii.stack_height.getD 1) },
               build_instruction ak ii.instruction iw isg) :: es, ?_, ?_, ?_⟩
      · rw [processInnerLoop_cons ak tm iw isg i ps prev ii rest hcond, hes]
        rfl
      · rw [List.chain'_cons]
        refine ⟨⟨fun hgt => ?_, fun _ => ?_⟩, hch⟩
        · exfalso
          have : e0.1.stack_height < ii.stack_height.getD 1 := hgt
          omega
        · show ((innerPathStack ps prev ii).take (ii.stack_height.getD 1)).get?
              (ii.stack_height.getD 1 - 1) =
            (e0.1.absolute_path.get? (ii.stack_height.getD 1 - 1)).map (· + 1)
          rw [List.get?_take (by omega), hgd, hself,
            hagree (hh - 1) (by omega), hx0]
          rfl
      · intro e he
        rcases List.mem_cons.mp he with he' | he'
        · subst he'
          refine ⟨?_, by simpa [hgd] using hh2⟩
          show ((innerPathStack ps prev ii).take (ii.stack_height.getD 1)).get? 0 = some i
          rw [List.get?_take (by omega)]
          exact hips0
        · exact hmem e he'

theorem processGroups_nil_of_no_match (ak : List Pubkey) (tm : TransactionMetadata)
    (iw isg : Pubkey → Nat → Bool) (i : Nat) :
    ∀ gs, (∀ g ∈ gs, ¬ g.index = i) → processGroups ak tm iw isg i gs = some [] := by
  intro gs
  induction gs with
  | nil => intro _; rfl
  | cons g rest ih =>
    intro h
    simp only [processGroups]
    rw [if_neg (h g (by simp))]
    exact ih fun x hx => h x (by simp [hx])

/-- The per-top-level scan over all groups preserves the chain: with
pairwise-distinct group indices there is at most one matching group, whose
rows chain from the top-level row `e0`. -/
theorem processGroups_chain (ak : List Pubkey) (tm : TransactionMetadata)
    (iw isg : Pubkey → Nat → Bool) (i : Nat) (gs : List InnerInstructions)
    (e0 : InstructionMetadata × Instruction)
    (he0h : e0.1.stack_height = 1) :
    (gs.map fun g => g.index).Nodup →
    (∀ g ∈ gs, g.instructions.length ≤ 255 ∧
      ∀ ii ∈ g.instructions, ∃ hh, ii.stack_height = some hh ∧ 2 ≤ hh ∧
        hh ≤ MAX_INSTRUCTION_STACK_DEPTH) →
    ∃ rows, processGroups ak tm iw isg i gs = some rows ∧
      List.Chain' c4Rel (e0 :: rows) ∧
      ∀ e ∈ rows, e.1.absolute_path.get? 0 = some i ∧ 2 ≤ e.1.stack_height := by
  induction gs with
  | nil =>
    intro _ _
    exact ⟨[], rfl, List.chain'_singleton e0, by simp⟩
  | cons g rest ih =>
    intro hn hstrict
    by_cases hgi : g.index = i
    · have hnomatch : ∀ g' ∈ rest, ¬ g'.index = i := by
        intro g' hg' hgi'
        rw [List.map_cons, List.nodup_cons] at hn
        exact hn.1 (List.mem_map.mpr ⟨g', hg', by rw [hgi', hgi]⟩)
      obtain ⟨es, hes, hch, hmem⟩ := innerLoop_chain ak tm iw isg i g.instructions
        ((List.replicate MAX_INSTRUCTION_STACK_DEPTH 0).set 0 i) 0 0 e0
        (by simp)
        (by
          rw [List.get?_set, if_pos rfl]
          rw [List.get?_eq_get (by simp [MAX_INSTRUCTION_STACK_DEPTH])]
          simp)
        (by
          intro k x hk hx
          rw [List.get?_set] at hx
          rw [if_neg (by omega)] at hx
          cases hrep : (List.replicate MAX_INSTRUCTION_STACK_DEPTH (0 : Nat)).get? k with
          | none => rw [hrep] at hx; exact Option.noConfusion hx
          | some y =>
            rw [hrep] at hx
            injection hx with hx'
            have : y = 0 := by
              have := List.get?_mem hrep
              simpa using List.eq_of_mem_replicate this
            omega)
        (by simpa using (hstrict g (by simp)).1)
        ((hstrict g (by simp)).2)
        (Or.inr ⟨rfl, he0h⟩)
        (fun k hk => absurd hk (by omega))
      have hrest := processGroups_nil_of_no_match ak tm iw isg i rest hnomatch
      refine ⟨es, ?_, hch, hmem⟩
      simp only [processGroups]
      rw [if_pos hgi, hgi, hes, hrest]
      simp
    · have hn' : (rest.map fun g => g.index).Nodup := by
        rw [List.map_cons, List.nodup_cons] at hn
        exact hn.2
      obtain ⟨rows, hrows, hch, hmem⟩ := ih hn' fun x hx => hstrict x (by simp [hx])
      refine ⟨rows, ?_, hch, hmem⟩
      simp only [processGroups]
      rw [if_neg hgi]
      exact hrows

/-- The outer loop preserves the chain across top-level blocks. -/
theorem processLoop_chain (ak : List Pubkey) (inner : Option (List InnerInstructions))
    (tm : TransactionMetadata) (iw isg : Pubkey → Nat → Bool)
    (instrs : List CompiledInstruction)
    (hn : ((inner.getD []).map fun g => g.index).Nodup)
    (hstrict : ∀ g ∈ inner.getD [], g.instructions.length ≤ 255 ∧
      ∀ ii ∈ g.instructions, ∃ hh, ii.stack_height = some hh ∧ 2 ≤ hh ∧
        hh ≤ MAX_INSTRUCTION_STACK_DEPTH) :
    ∀ i, i + instrs.length ≤ 256 →
    ∃ L, processInstructionsLoop ak inner tm iw isg i instrs = some L ∧
      List.Chain' c4Rel L ∧
      ∀ e, L.head? = some e → e.1.stack_height = 1 ∧ e.1.absolute_path = [i] := by
  induction instrs with
  | nil =>
    intro i _
    exact ⟨[], rfl, List.chain'_nil, by simp⟩
  | cons ci rest ih =>
    intro i hi
    rw [List.length_cons] at hi
    have hmod : i % 256 = i := Nat.mod_eq_of_lt (by omega)
    obtain ⟨rows, hrows, hch0, hmem⟩ := processGroups_chain ak tm iw isg i (inner.getD [])
      ({ transaction_metadata := tm
         stack_height := 1
         index := i % 2 ^ 32
         absolute_path := [i % 256] },
       build_instruction ak ci iw isg)
      rfl hn hstrict
    obtain ⟨L, hL, hchL, hheadL⟩ := ih (i + 1) (by omega)
    refine ⟨({ transaction_metadata := tm
               stack_height := 1
               index := i % 2 ^ 32
               absolute_path := [i % 256] },
             build_instruction ak ci iw isg) :: rows ++ L, ?_, ?_, ?_⟩
    · simp only [processInstructionsLoop]
      rw [hrows, hL]
    · rw [List.chain'_append]
      refine ⟨hch0, hchL, ?_⟩
      intro x hx y hy
      have hyy := hheadL y (Option.mem_def.mp hy)
      have hLne : rest ≠ [] := by
        intro hre
        rw [hre] at hL
        injection hL with hL'
        rw [← hL'] at hy
        simp at hy
      have hi255 : i + 1 ≤ 255 := by
        have : 1 ≤ rest.length := by
          cases rest with
          | nil => exact absurd rfl hLne
          | cons a b => simp
        omega
      have hx' : x.1.absolute_path.get? 0 = some i ∧ 1 ≤ x.1.stack_height := by
        obtain ⟨l0, hl0⟩ := List.getLast?_eq_some_iff.mp (Option.mem_def.mp hx)
        have hxmem : x ∈ (({ transaction_metadata := tm, stack_height := 1, index := i % 2 ^ 32, absolute_path := [i % 256] } : InstructionMetadata), build_instruction ak ci iw isg) :: rows := by
          rw [hl0]
          simp
        rcases List.mem_cons.mp hxmem with hxe | hxr
        · subst hxe
          exact ⟨by simp [hmod], by simp⟩
        · obtain ⟨h1, h2⟩ := hmem x hxr
          exact ⟨h1, by omega⟩
      constructor
      · intro hlt
        rw [hyy.1] at hlt
        omega
      · intro _
        rw [hyy.1, hyy.2, hx'.1]
        simp
    · intro e he
      rw [List.cons_append, List.head?_cons] at he
      injection he with he'
      subst he'
      exact ⟨rfl, by simp [hmod]⟩

/-- C4 amended: for inputs in strict protocol shape — at most 256 top-level
instructions, pairwise-distinct group indices, at most 255 instructions per
group, every inner instruction carrying an explicit stack-height hint in
`[2, MAX_INSTRUCTION_STACK_DEPTH]` — the extractor succeeds and any two
consecutive output rows with depths `d1` then `d2` satisfy: if `d2 > d1` the
second row's path element at its own depth is 0; if `d2 ≤ d1` the second
row's path element at depth `d2` is exactly one greater than the previous
row's element at depth `d2` (the previous row, having depth `d1 ≥ d2`, is
the most recent row whose depth reaches `d2`). -/
theorem path_monotonicity_amended (ak : List Pubkey)
    (instrs : List CompiledInstruction) (inner : Option (List InnerInstructions))
    (tm : TransactionMetadata) (iw isg : Pubkey → Nat → Bool)
    (hlen : instrs.length ≤ 256) (hs : StrictHints inner) :
    ∃ L, process_instructions ak instrs inner tm iw isg = some L ∧
      List.Chain' c4Rel L := by
  have hn : ((inner.getD []).map fun g => g.index).Nodup := by
    cases inner with
    | none => simp
    | some gs => exact (hs gs rfl).1
  have hstrict : ∀ g ∈ inner.getD [], g.instructions.length ≤ 255 ∧
      ∀ ii ∈ g.instructions, ∃ hh, ii.stack_height = some hh ∧ 2 ≤ hh ∧
        hh ≤ MAX_INSTRUCTION_STACK_DEPTH := by
    cases inner with
    | none => simp
    | some gs => exact (hs gs rfl).2
  obtain ⟨L, hL, hch, _⟩ :=
    processLoop_chain ak inner tm iw isg instrs hn hstrict 0 (by omega)
  exact ⟨L, hL, hch⟩

/-- Witness for the amended C4: two top-level instructions, one inner group
of two depth-2 instructions with explicit hints. -/
theorem path_monotonicity_amended_witness :
    ([ciSample 0, ciSample 1] : List CompiledInstruction).length ≤ 256 ∧
    StrictHints (some [sampleGroup]) ∧
    ∃ L, process_instructions [7] [ciSample 0, ciSample 1] (some [sampleGroup]) tmSample
        (fun _ _ => false) (fun _ _ => false) = some L ∧
      List.Chain' c4Rel L := by
  have hs : StrictHints (some [sampleGroup]) := by
    intro gs hgs
    cases hgs
    refine ⟨by simp, ?_⟩
    intro g hg
    simp only [List.mem_cons, List.not_mem_nil, or_false] at hg
    subst hg
    refine ⟨by simp [sampleGroup], ?_⟩
    intro ii hii
    simp only [sampleGroup, List.mem_cons, List.not_mem_nil, or_false] at hii
    rcases hii with h | h <;> subst h <;>
      exact ⟨2, rfl, by omega, by norm_num [MAX_INSTRUCTION_STACK_DEPTH]⟩
  exact ⟨by simp, hs, path_monotonicity_amended [7] [ciSample 0, ciSample 1]
    (some [sampleGroup]) tmSample (fun _ _ => false) (fun _ _ => false) (by simp) hs⟩

end Pulstream
